import Mathlib

/-!
Verification development for the `mcts` Go package (Monte Carlo Tree Search).

Shallow embedding notes:
* Go boards (`[][]int`) are mutable slices shared by reference.  We model the
  heap of board slices explicitly: a `Store` is a list of board values and a
  board reference is its index.  `copyBoard` allocates a fresh reference,
  in-place mutation by `ApplyMove` is a `setBoard` at the reference the engine
  passed.  This lets aliasing ("copied at entry", "never mutates the caller's
  board") be stated faithfully.
* The search tree (`treeNode` with `parent` pointers) is modelled as a rooted
  tree `TNode`; a node is addressed by its path of child indices from the
  root.  Walking `parent` pointers up to the root corresponds to updating the
  node at every prefix of the path.
* `int64` visit counters are modelled as `ℕ` (they are only ever incremented,
  starting from 0), `float64` win scores as `ℚ`.
* The UCB1 value `winScore/visits + √2·√(ln parentVisits / visits)` is a
  `float64` computation; the selection code is parametrised over an arbitrary
  score function into an arbitrary linear order, so every theorem below holds
  for the real-valued UCB1 formula `ucbFormula` in particular.  Which children
  the formula is evaluated on, and the selected index when a zero-visit child
  exists, do not depend on the score function.
* `time.Since(t0) < duration` is modelled by an oracle `List Bool` consumed at
  the successive loop checks (an exhausted oracle reads as `false`; a zero or
  negative duration is the all-`false` oracle, since `time.Since` is never
  negative).  The evaluator's random source is modelled by a call counter
  threaded through the search, and the rollout loop (which Go does not bound)
  takes a fuel parameter; `none` stands for a run that exceeds the fuel.
* Go `panic(err)` on a collaborator error aborts the whole `Search` call with
  the error; it is modelled as `Except.error` propagation.
-/

/-- A Go `[][]int` board value. -/
abbrev Board := List (List ℤ)

/-- A reference to a board slice: an index into the store. -/
abbrev BoardRef := ℕ

/-- The heap of live board slices. -/
abbrev Store := List Board

/-- Read the board value behind a reference. -/
def getBoard (s : Store) (r : BoardRef) : Board := s.getD r []

/-- Overwrite the board behind a reference (Go in-place slice mutation). -/
def setBoard (s : Store) (r : BoardRef) (b : Board) : Store := s.set r b

/-- Allocate a fresh board slice holding value `b`; returns its reference. -/
def allocBoard (s : Store) (b : Board) : BoardRef × Store := (s.length, s ++ [b])

/-- Embeds `copyBoard` (mcts.go lines 158-167): allocate a fresh board with
the same cell values as the one behind `r`. -/
def copyBoard (s : Store) (r : BoardRef) : BoardRef × Store :=
  allocBoard s (getBoard s r)

/-- A value implementing the Go `Move` interface: an identity plus the
self-reported evaluation `Eval()`. -/
structure Move where
  mid : ℕ
  eval : ℚ
deriving DecidableEq, Repr

/-- Collaborator errors (Go `error` values). -/
abbrev Err := String

/-- The Go `Evaluator` interface.  `RandomMove` consumes one tick of the
caller-owned random source, modelled by the `ℕ` call counter; `ApplyMove`
returns the mutated board value instead of mutating in place. -/
structure Evaluator where
  RandomMove : ℕ → Board → ℤ → Option Move
  ApplyMove : Board → ℤ → Move → Except Err (Bool × ℤ × Board)
  NextPlayer : ℤ → ℤ
  PrevPlayer : ℤ → ℤ

/-- The Go `Expander` interface. -/
structure Expander where
  Expand : Board → ℤ → List Move

/-- Per-node fields of `treeNode` (mcts.go lines 173-185) other than the
children list; `parent` is implicit in the path addressing, `level` is unused
by the source. -/
structure NodeData where
  side : ℤ
  move : Option Move
  winner : ℤ
  winScore : ℚ
  visits : ℕ
  gameOver : Bool
  boardRef : BoardRef
  depth : ℕ
deriving DecidableEq, Repr

/-- The search tree: `treeNode` with the `children` slice. -/
inductive TNode : Type where
  | mk : NodeData → List TNode → TNode
deriving Repr

/-- The node's scalar fields. -/
def TNode.data : TNode → NodeData
  | .mk d _ => d

/-- The node's children, in creation order. -/
def TNode.children : TNode → List TNode
  | .mk _ cs => cs

@[simp] theorem TNode.data_mk (d : NodeData) (cs : List TNode) :
    (TNode.mk d cs).data = d := rfl

@[simp] theorem TNode.children_mk (d : NodeData) (cs : List TNode) :
    (TNode.mk d cs).children = cs := rfl

theorem TNode.eta (n : TNode) : TNode.mk n.data n.children = n := by
  cases n; rfl

/-- Fetch the node at a path of child indices (the root is `[]`). -/
def getNode? : TNode → List ℕ → Option TNode
  | n, [] => some n
  | n, i :: p => n.children[i]? >>= fun c => getNode? c p

/-- Scalar fields of the node at a path. -/
def dataAt (t : TNode) (p : List ℕ) : Option NodeData :=
  (getNode? t p).map TNode.data

/-- Scan step of `highestUCBChild` (mcts.go lines 206-217), generalised over
the score function `score` (instantiated with `ucbFormula` by the source).
Besides the selected index it returns, as ghost instrumentation, the
`(parentVisits, visits)` argument pairs the formula was evaluated on and
whether the zero-visit short circuit fired.  `best`/`maxVal` are the running
argmax, `i` the index of the head of the remaining list, `evals` the
evaluation arguments accumulated so far. -/
def hGo {R : Type} [LinearOrder R] (score : ℕ → ℕ → ℚ → R) (pv : ℕ) :
    List TNode → ℕ → ℕ → R → List (ℕ × ℕ) → ℕ × List (ℕ × ℕ) × Bool
  | [], _, best, _, evals => (best, evals, false)
  | c :: rest, i, best, maxVal, evals =>
    if c.data.visits = 0 then (i, evals, true)
    else
      let val := score pv c.data.visits c.data.winScore
      if maxVal < val then hGo score pv rest (i + 1) i val ((pv, c.data.visits) :: evals)
      else hGo score pv rest (i + 1) best maxVal ((pv, c.data.visits) :: evals)

/-- Embeds `highestUCBChild` (mcts.go lines 198-219), generalised over the
score function; returns the selected child index plus the ghost data of
`hGo`.  Go indexes `n.children[0]` unconditionally (panic on empty); callers
guard non-emptiness, the `[]` case here is dead code. -/
def hIdxCore {R : Type} [LinearOrder R] (score : ℕ → ℕ → ℚ → R) (pv : ℕ) :
    List TNode → ℕ × List (ℕ × ℕ) × Bool
  | [] => (0, [], false)
  | c :: rest =>
    if c.data.visits = 0 then (0, [], true)
    else hGo score pv rest 1 0 (score pv c.data.visits c.data.winScore) [(pv, c.data.visits)]

/-- Embeds the descent loop of `promisingNode` (mcts.go lines 191-194):
`for len(res.children) > 0 { res = highestUCBChild(res) }`.  Returns the path
of selected child indices plus the accumulated ghost data of every
`highestUCBChild` call made on the way down. -/
def descendCore {R : Type} [LinearOrder R] (score : ℕ → ℕ → ℚ → R) (n : TNode) :
    List ℕ × List (ℕ × ℕ) × Bool :=
  match n with
  | .mk d cs =>
    if cs.isEmpty then ([], [], false)
    else
      let r := hIdxCore score d.visits cs
      if hi : r.1 < cs.length then
        let rest := descendCore score (cs.get ⟨r.1, hi⟩)
        (r.1 :: rest.1, r.2.1 ++ rest.2.1, r.2.2 || rest.2.2)
      else ([], r.2.1, r.2.2)
termination_by sizeOf n
decreasing_by
  rename_i d cs _h
  have hlt := List.sizeOf_lt_of_mem
    (List.get_mem cs (hIdxCore score d.visits cs).1 hi)
  simp only [TNode.mk.sizeOf_spec]
  omega

/-- Embeds `promisingNode` (mcts.go lines 187-196) in path form, with the
selection ghost data. -/
def promisingCore {R : Type} [LinearOrder R] (score : ℕ → ℕ → ℚ → R) (n : TNode) :
    List ℕ × List (ℕ × ℕ) × Bool :=
  if n.data.gameOver then ([], [], false) else descendCore score n

/-- The path selected by `promisingNode`. -/
def promisingPath {R : Type} [LinearOrder R] (score : ℕ → ℕ → ℚ → R) (n : TNode) : List ℕ :=
  (promisingCore score n).1

/-- The `(parentVisits, visits)` pairs the score formula was evaluated on
during one `promisingNode` descent. -/
def promisingEvals {R : Type} [LinearOrder R] (score : ℕ → ℕ → ℚ → R) (n : TNode) :
    List (ℕ × ℕ) :=
  (promisingCore score n).2.1

/-- Whether the zero-visit short circuit of `highestUCBChild` fired during one
`promisingNode` descent. -/
def promisingZeroHit {R : Type} [LinearOrder R] (score : ℕ → ℕ → ℚ → R) (n : TNode) : Bool :=
  (promisingCore score n).2.2

/-- The UCB1 value computed at mcts.go lines 205 and 212:
`winScore/visits + math.Sqrt2 * math.Sqrt(math.Log(parentVisits)/visits)`,
with `float64` idealised as `ℝ`. -/
noncomputable def ucbFormula (parentVisits visits : ℕ) (winScore : ℚ) : ℝ :=
  (winScore : ℝ) / (visits : ℝ) +
    Real.sqrt 2 * Real.sqrt (Real.log (parentVisits : ℝ) / (visits : ℝ))

/-- `highestUCBChild` as the source runs it: the generic scan instantiated at
the real UCB1 formula. -/
noncomputable def highestUCBChild (n : TNode) : Option TNode :=
  n.children[(hIdxCore ucbFormula n.data.visits n.children).1]?

/-- One step of the statistic seeding walk of `expand` (mcts.go lines
122-131) at one node: `visits++`, and `winScore += m.Eval()` when the node's
side equals the created child's side, else `winScore -= m.Eval()`. -/
def seedData (d : NodeData) (childSide : ℤ) (e : ℚ) : NodeData :=
  { d with visits := d.visits + 1,
           winScore := if d.side = childSide then d.winScore + e else d.winScore - e }

/-- Replay, at an ancestor, the seeding contributions of a batch of created
children, given as `(childSide, eval)` pairs in creation order. -/
def applyDeltas (ds : List (ℤ × ℚ)) (d : NodeData) : NodeData :=
  ds.foldl (fun acc pr => seedData acc pr.1 pr.2) d

/-- The fields of a freshly created child (mcts.go lines 104-111 and 117-120)
after its own seeding step: `visits = 1`, `winScore = m.Eval()` (the child's
side always equals the seeding walk's reference side), and the terminal
outcome of applying the move. -/
def mkChild (nextPlayer : ℤ) (m : Move) (go : Bool) (w : ℤ) (ref : BoardRef)
    (dep : ℕ) : NodeData :=
  { side := nextPlayer, move := some m, winner := if go then w else 0,
    winScore := m.eval, visits := 1, gameOver := go, boardRef := ref, depth := dep }

/-- Embeds the per-move loop of `expand` (mcts.go lines 102-132) at the
expanded node itself: for each move, copy the node's board, create the child,
apply the move on the copy (an error aborts the call, Go `panic`), mark the
child terminal on game over, and seed statistics (the expanded node is seeded
via `seedData`).  Returns the updated node, the store, and the `(side, eval)`
contributions the walk propagates to the strict ancestors. -/
def expandMoves (ev : Evaluator) (nextPlayer : ℤ) :
    List Move → Store → TNode → Except Err (TNode × Store × List (ℤ × ℚ))
  | [], store, n => .ok (n, store, [])
  | m :: ms, store, n =>
    let rc := copyBoard store n.data.boardRef
    match ev.ApplyMove (getBoard rc.2 rc.1) nextPlayer m with
    | .error e => .error e
    | .ok (go, w, b2) =>
      let store2 := setBoard rc.2 rc.1 b2
      let n2 := TNode.mk (seedData n.data nextPlayer m.eval)
        (n.children ++ [TNode.mk (mkChild nextPlayer m go w rc.1 (n.data.depth + 1)) []])
      match expandMoves ev nextPlayer ms store2 n2 with
      | .error e => .error e
      | .ok (n3, store3, ds) => .ok (n3, store3, (nextPlayer, m.eval) :: ds)

/-- Embeds `expand` (mcts.go lines 93-133) at the expanded node: no-op on a
terminal node or at the depth cap, otherwise list candidate moves for the
next player and create the children. -/
def expandLocal (ev : Evaluator) (ex : Expander) (maxDepth : ℤ) (store : Store) (n : TNode) :
    Except Err (TNode × Store × List (ℤ × ℚ)) :=
  if n.data.gameOver then .ok (n, store, [])
  else if 0 < maxDepth ∧ maxDepth ≤ (n.data.depth : ℤ) then .ok (n, store, [])
  else
    expandMoves ev (ev.NextPlayer n.data.side)
      (ex.Expand (getBoard store n.data.boardRef) (ev.NextPlayer n.data.side)) store n

/-- `expand` on the node at a path: the node itself is expanded by
`expandLocal` and every strict ancestor on the path receives the seeding
contributions (the `child = child.parent` walk of mcts.go lines 123-131). -/
def expandAt (ev : Evaluator) (ex : Expander) (maxDepth : ℤ) :
    Store → TNode → List ℕ → Except Err (TNode × Store × List (ℤ × ℚ))
  | store, n, [] => expandLocal ev ex maxDepth store n
  | store, n, i :: p =>
    match n.children[i]? with
    | none => .ok (n, store, [])
    | some c =>
      match expandAt ev ex maxDepth store c p with
      | .error e => .error e
      | .ok (c2, store2, ds) =>
        .ok (TNode.mk (applyDeltas ds n.data) (n.children.set i c2), store2, ds)

/-- Embeds `firstChildOrItself` (mcts.go lines 135-140) on the node at path
`p`: the same node if it is childless or terminal, else its first child. -/
def firstChildPath (t : TNode) (p : List ℕ) : List ℕ :=
  match getNode? t p with
  | none => p
  | some n => if n.children.isEmpty || n.data.gameOver then p else p ++ [0]

/-- Why the rollout loop stopped (ghost instrumentation): the node was
already terminal, a random playout reached a terminal state, or the rules
collaborator reported no legal move. -/
inductive StopReason : Type where
  | alreadyOver : StopReason
  | terminalHit : StopReason
  | noMove : StopReason
deriving DecidableEq, Repr

/-- Embeds the playout loop of `randomPlayOut` (mcts.go lines 76-90) on the
scratch board behind `ref`.  `curWinner` is the value the node's `winner`
field holds when the loop stops without reaching a terminal state (the
`m == nil` break leaves it untouched).  `fuel` bounds the number of moves
played; `none` means the bound was exceeded (the Go loop is unbounded). -/
def playoutLoop (ev : Evaluator) :
    ℕ → ℕ → Store → BoardRef → ℤ → ℤ → Option (Except Err (ℤ × StopReason × ℕ × Store))
  | 0, _, _, _, _, _ => none
  | fuel + 1, rng, store, ref, turn, curWinner =>
    match ev.RandomMove rng (getBoard store ref) turn with
    | none => some (.ok (curWinner, .noMove, rng + 1, store))
    | some m =>
      match ev.ApplyMove (getBoard store ref) turn m with
      | .error e => some (.error e)
      | .ok (go, w, b2) =>
        let store2 := setBoard store ref b2
        if go then some (.ok (w, .terminalHit, rng + 1, store2))
        else playoutLoop ev fuel (rng + 1) store2 ref (ev.NextPlayer turn) curWinner

/-- Embeds `randomPlayOut` (mcts.go lines 69-91) at node `n`: return at once
on a terminal node, else play random moves on a private copy of the node's
board.  Returns the node's resulting `winner` field value (assigned only when
a playout reaches game over), the stop reason, the advanced random counter
and the store. -/
def randomPlayOut (ev : Evaluator) (fuel : ℕ) (rng : ℕ) (store : Store) (n : TNode) :
    Option (Except Err (ℤ × StopReason × ℕ × Store)) :=
  if n.data.gameOver then some (.ok (n.data.winner, .alreadyOver, rng, store))
  else
    let rc := copyBoard store n.data.boardRef
    playoutLoop ev fuel rng rc.2 rc.1 (ev.NextPlayer n.data.side) n.data.winner

/-- Write `w` into the `winner` field of the node at the path. -/
def setWinnerAt : TNode → List ℕ → ℤ → TNode
  | .mk d cs, [], w => .mk { d with winner := w } cs
  | .mk d cs, i :: p, w =>
    match cs[i]? with
    | none => .mk d cs
    | some c => .mk d (cs.set i (setWinnerAt c p w))

/-- One node update of `backpropagate` (mcts.go lines 224-231): `visits++`;
for a non-zero winner, `winScore += 1.0` when the node's side is the winner,
else `winScore -= 1.0`; a draw leaves `winScore` unchanged. -/
def bumpData (winner : ℤ) (d : NodeData) : NodeData :=
  { d with visits := d.visits + 1,
           winScore := if winner = 0 then d.winScore
             else if winner = d.side then d.winScore + 1 else d.winScore - 1 }

/-- Apply `bumpData` to the node at every prefix of the path, i.e. to the
start node and each ancestor up to the root (the `n = n.parent` walk). -/
def backpropWith (winner : ℤ) : TNode → List ℕ → TNode
  | .mk d cs, [] => .mk (bumpData winner d) cs
  | .mk d cs, i :: p =>
    match cs[i]? with
    | none => .mk (bumpData winner d) cs
    | some c => .mk (bumpData winner d) (cs.set i (backpropWith winner c p))

/-- The `winner` field of the node at the path (0 when the path is dangling,
which never happens in a search run). -/
def winnerAt (t : TNode) (p : List ℕ) : ℤ :=
  ((dataAt t p).map NodeData.winner).getD 0

/-- Embeds `backpropagate` (mcts.go lines 221-234) from the node at path `p`:
read that node's recorded `winner`, then walk to the root updating every node
on the chain. -/
def backpropagate (t : TNode) (p : List ℕ) : TNode :=
  backpropWith (winnerAt t p) t p

/-- Scan step of `bestChild` (mcts.go lines 148-154): strict `>` keeps the
earliest child on ties. -/
def bestGo (res : TNode) (maxVisits : ℕ) : List TNode → TNode
  | [] => res
  | c :: cs =>
    if maxVisits < c.data.visits then bestGo c c.data.visits cs
    else bestGo res maxVisits cs

/-- Embeds `bestChild` (mcts.go lines 142-156): the first child attaining the
maximum `visits`; `none` embeds the Go panic on a childless node. -/
def bestChild (n : TNode) : Option TNode :=
  match n.children with
  | [] => none
  | c :: cs => some (bestGo c c.data.visits cs)

/-- The mutable state of one `Search` call: the tree, the board heap, and the
random-source call counter. -/
structure SState where
  root : TNode
  store : Store
  rng : ℕ
deriving Repr

/-- One body of the `Search` loop (mcts.go lines 59-63):
select → expand → first child or itself → rollout → backpropagate.
`none` models a rollout exceeding its fuel. -/
def searchIter {R : Type} [LinearOrder R] (ev : Evaluator) (ex : Expander) (maxDepth : ℤ)
    (score : ℕ → ℕ → ℚ → R) (fuel : ℕ) (st : SState) : Option (Except Err SState) :=
  let path := promisingPath score st.root
  match expandAt ev ex maxDepth st.store st.root path with
  | .error e => some (.error e)
  | .ok (root1, store1, _) =>
    let p2 := firstChildPath root1 path
    match getNode? root1 p2 with
    | none => none
    | some n =>
      match randomPlayOut ev fuel st.rng store1 n with
      | none => none
      | some (.error e) => some (.error e)
      | some (.ok (w, _, rng2, store2)) =>
        some (.ok ⟨backpropagate (setWinnerAt root1 p2 w) p2, store2, rng2⟩)

/-- Embeds the `Search` loop (mcts.go lines 52-64).  `iter` is the Go `iter`
counter; the loop condition `iter == 0 || time.Since(t0) < duration`
short-circuits, so the oracle is consulted (and consumed) only when
`iter != 0`.  Returns the final state and the number of loop-body executions.
-/
def searchLoop {R : Type} [LinearOrder R] (ev : Evaluator) (ex : Expander) (maxDepth : ℤ)
    (score : ℕ → ℕ → ℚ → R) (fuel : ℕ) (maxIters : ℤ) (oracle : List Bool) (iter : ℕ)
    (st : SState) : Option (Except Err (SState × ℕ)) :=
  if hc : iter = 0 ∨ oracle.headD false = true then
    if 0 < maxIters ∧ maxIters ≤ (iter : ℤ) then some (.ok (st, iter))
    else
      match searchIter ev ex maxDepth score fuel st with
      | none => none
      | some (.error e) => some (.error e)
      | some (.ok st2) =>
        searchLoop ev ex maxDepth score fuel maxIters
          (if iter = 0 then oracle else oracle.tail) (iter + 1) st2
  else some (.ok (st, iter))
termination_by oracle.length + (if iter = 0 then 1 else 0)
decreasing_by
  by_cases h0 : iter = 0
  · simp [h0]
  · have hne : oracle ≠ [] := by
      intro he
      rcases hc with h | h
      · exact h0 h
      · rw [he] at h; exact Bool.false_ne_true h
    cases oracle with
    | nil => exact absurd rfl hne
    | cons b bs => simp [h0]

/-- The root node `Search` creates (mcts.go lines 45-50): the caller's board
reference is stored as-is, the side is the previous player of the requested
side. -/
def mkRoot (ev : Evaluator) (boardRef : BoardRef) (side : ℤ) : TNode :=
  TNode.mk { side := ev.PrevPlayer side, move := none, winner := 0, winScore := 0,
             visits := 0, gameOver := false, boardRef := boardRef, depth := 0 } []

/-- The state a `Search` call starts from: fresh root, the caller's store
untouched, random counter 0. -/
def initState (ev : Evaluator) (boardRef : BoardRef) (side : ℤ) (store : Store) : SState :=
  ⟨mkRoot ev boardRef side, store, 0⟩

/-- Embeds `Search` (mcts.go lines 43-67): run the loop from the fresh root,
then return the best child's move and the root's visit count.  The `none`
Go panic on a childless root is modelled as an error result; the final state
and the iteration count are returned as ghost outputs. -/
def search {R : Type} [LinearOrder R] (ev : Evaluator) (ex : Expander) (boardRef : BoardRef)
    (side : ℤ) (oracle : List Bool) (maxDepth maxIters : ℤ) (score : ℕ → ℕ → ℚ → R)
    (fuel : ℕ) (store : Store) : Option (Except Err ((Option Move × ℕ) × SState × ℕ)) :=
  match searchLoop ev ex maxDepth score fuel maxIters oracle 0
      (initState ev boardRef side store) with
  | none => none
  | some (.error e) => some (.error e)
  | some (.ok (st, n)) =>
    match bestChild st.root with
    | none => some (.error "could not find any children")
    | some c => some (.ok ((c.data.move, st.root.data.visits), st, n))

/-- A trivial concrete game for exercising the engine: every expansion offers
one move (eval 0) that immediately ends the game in a draw, and the rollout
collaborator reports no legal move. -/
def wEv : Evaluator :=
  { RandomMove := fun _ _ _ => none
    ApplyMove := fun b _ _ => .ok (true, 0, b)
    NextPlayer := fun s => 3 - s
    PrevPlayer := fun s => 3 - s }

/-- Move generator of the trivial game: always one candidate move. -/
def wEx : Expander := { Expand := fun _ _ => [⟨0, 0⟩] }

/-- A concrete score function for witness runs (its value is irrelevant to
every property proved below). -/
def wScore : ℕ → ℕ → ℚ → ℚ := fun _ _ _ => 0

/-- A one-board heap: the caller's board sits at reference 0. -/
def wStore : Store := [[[0]]]

/-- A collaborator whose `ApplyMove` always reports an error. -/
def bEv : Evaluator :=
  { RandomMove := fun _ _ _ => none
    ApplyMove := fun _ _ _ => .error "boom"
    NextPlayer := fun s => 3 - s
    PrevPlayer := fun s => 3 - s }

/-- The engine extended the heap: the old slices still exist and are
untouched; only freshly allocated slices were written. -/
def storeExtends (s0 s1 : Store) : Prop :=
  s0.length ≤ s1.length ∧ ∀ r < s0.length, getBoard s1 r = getBoard s0 r

theorem storeExtends_refl (s : Store) : storeExtends s s :=
  ⟨le_refl _, fun _ _ => rfl⟩

theorem storeExtends_trans {s0 s1 s2 : Store} (h1 : storeExtends s0 s1)
    (h2 : storeExtends s1 s2) : storeExtends s0 s2 :=
  ⟨h1.1.trans h2.1, fun r hr => (h2.2 r (lt_of_lt_of_le hr h1.1)).trans (h1.2 r hr)⟩

theorem getBoard_eq_getElem? (s : Store) (r : BoardRef) :
    getBoard s r = (s[r]?).getD [] := by
  simp [getBoard, List.getD_eq_getElem?_getD]

theorem storeExtends_alloc (s : Store) (b : Board) : storeExtends s (s ++ [b]) := by
  constructor
  · simp
  · intro r hr
    rw [getBoard_eq_getElem?, getBoard_eq_getElem?, List.getElem?_append, if_pos hr]

theorem storeExtends_setFresh {s0 s : Store} (r : BoardRef) (b : Board)
    (h : storeExtends s0 s) (hr : s0.length ≤ r) : storeExtends s0 (setBoard s r b) := by
  constructor
  · simpa [setBoard] using h.1
  · intro r2 hr2
    rw [getBoard_eq_getElem?, setBoard, List.getElem?_set_ne (by omega),
      ← getBoard_eq_getElem?]
    exact h.2 r2 hr2

theorem length_setBoard (s : Store) (r : BoardRef) (b : Board) :
    (setBoard s r b).length = s.length := by
  simp [setBoard]

theorem getBoard_setBoard_ne (s : Store) {r r2 : BoardRef} (b : Board) (h : r ≠ r2) :
    getBoard (setBoard s r b) r2 = getBoard s r2 := by
  rw [getBoard_eq_getElem?, getBoard_eq_getElem?, setBoard, List.getElem?_set_ne h]

theorem hGo_idx_lt {R : Type} [LinearOrder R] (score : ℕ → ℕ → ℚ → R) (pv : ℕ)
    (rest : List TNode) : ∀ (i best : ℕ) (maxVal : R) (evals : List (ℕ × ℕ)),
      best < i → (hGo score pv rest i best maxVal evals).1 < i + rest.length := by
  induction rest with
  | nil => intro i best maxVal evals h; simpa [hGo] using h
  | cons c cs ih =>
    intro i best maxVal evals h
    by_cases h0 : c.data.visits = 0
    · simp only [hGo, h0, if_true, List.length_cons]
      omega
    · simp only [hGo, h0, if_false]
      by_cases hlt : maxVal < score pv c.data.visits c.data.winScore
      · have hh := ih (i + 1) i (score pv c.data.visits c.data.winScore)
          ((pv, c.data.visits) :: evals) (by omega)
        simp only [if_pos hlt]
        simp only [List.length_cons]
        omega
      · have hh := ih (i + 1) best maxVal ((pv, c.data.visits) :: evals) (by omega)
        simp only [if_neg hlt]
        simp only [List.length_cons]
        omega

theorem hIdxCore_idx_lt {R : Type} [LinearOrder R] (score : ℕ → ℕ → ℚ → R) (pv : ℕ)
    (cs : List TNode) (h : cs ≠ []) : (hIdxCore score pv cs).1 < cs.length := by
  cases cs with
  | nil => exact absurd rfl h
  | cons c rest =>
    by_cases h0 : c.data.visits = 0
    · simp [hIdxCore, h0]
    · simp only [hIdxCore, h0, if_false, List.length_cons]
      have hh := hGo_idx_lt score pv rest 1 0
        (score pv c.data.visits c.data.winScore) [(pv, c.data.visits)] (by omega)
      omega

theorem hGo_evals_pos {R : Type} [LinearOrder R] (score : ℕ → ℕ → ℚ → R) (pv : ℕ)
    (rest : List TNode) : ∀ (i best : ℕ) (maxVal : R) (evals : List (ℕ × ℕ)),
      (∀ pr ∈ evals, pr.1 = pv ∧ 0 < pr.2) →
      ∀ pr ∈ (hGo score pv rest i best maxVal evals).2.1, pr.1 = pv ∧ 0 < pr.2 := by
  induction rest with
  | nil => intro i best maxVal evals h; simpa [hGo] using h
  | cons c cs ih =>
    intro i best maxVal evals h
    by_cases h0 : c.data.visits = 0
    · simpa [hGo, h0] using h
    · simp only [hGo, h0, if_false]
      have hcons : ∀ pr ∈ ((pv, c.data.visits) :: evals), pr.1 = pv ∧ 0 < pr.2 := by
        intro pr hpr
        rcases List.mem_cons.mp hpr with h1 | h1
        · subst h1; exact ⟨rfl, Nat.pos_of_ne_zero h0⟩
        · exact h pr h1
      by_cases hlt : maxVal < score pv c.data.visits c.data.winScore
      · simpa only [if_pos hlt] using ih (i + 1) i
          (score pv c.data.visits c.data.winScore) ((pv, c.data.visits) :: evals) hcons
      · simpa only [if_neg hlt] using ih (i + 1) best maxVal
          ((pv, c.data.visits) :: evals) hcons

theorem hIdxCore_evals_pos {R : Type} [LinearOrder R] (score : ℕ → ℕ → ℚ → R) (pv : ℕ)
    (cs : List TNode) : ∀ pr ∈ (hIdxCore score pv cs).2.1, pr.1 = pv ∧ 0 < pr.2 := by
  cases cs with
  | nil => simp [hIdxCore]
  | cons c rest =>
    by_cases h0 : c.data.visits = 0
    · simp [hIdxCore, h0]
    · simp only [hIdxCore, h0, if_false]
      refine hGo_evals_pos score pv rest 1 0 _ _ ?_
      intro pr hpr
      rcases List.mem_cons.mp hpr with h1 | h1
      · subst h1; exact ⟨rfl, Nat.pos_of_ne_zero h0⟩
      · simp at h1

theorem hGo_zero_shortcircuit {R : Type} [LinearOrder R] (score : ℕ → ℕ → ℚ → R) (pv : ℕ)
    (rest : List TNode) : ∀ (i best : ℕ) (maxVal : R) (evals : List (ℕ × ℕ)),
      (∃ c ∈ rest, c.data.visits = 0) →
      (hGo score pv rest i best maxVal evals).1
          = i + rest.findIdx (fun c => c.data.visits == 0) ∧
        (hGo score pv rest i best maxVal evals).2.2 = true := by
  induction rest with
  | nil => intro i best maxVal evals h; simp at h
  | cons c cs ih =>
    intro i best maxVal evals h
    by_cases h0 : c.data.visits = 0
    · simp [hGo, h0, List.findIdx_cons]
    · have hcs : ∃ x ∈ cs, x.data.visits = 0 := by
        rcases h with ⟨x, hx, hx0⟩
        rcases List.mem_cons.mp hx with h1 | h1
        · subst h1; exact absurd hx0 h0
        · exact ⟨x, h1, hx0⟩
      simp only [hGo, h0, if_false, List.findIdx_cons]
      have h0b : (c.data.visits == 0) = false := by simpa using h0
      rw [h0b]
      simp only [cond_false]
      by_cases hlt : maxVal < score pv c.data.visits c.data.winScore
      · have hh := ih (i + 1) i (score pv c.data.visits c.data.winScore)
          ((pv, c.data.visits) :: evals) hcs
        simp only [if_pos hlt]
        exact ⟨by rw [hh.1]; omega, hh.2⟩
      · have hh := ih (i + 1) best maxVal ((pv, c.data.visits) :: evals) hcs
        simp only [if_neg hlt]
        exact ⟨by rw [hh.1]; omega, hh.2⟩

theorem hIdxCore_zero_shortcircuit {R : Type} [LinearOrder R] (score : ℕ → ℕ → ℚ → R)
    (pv : ℕ) (cs : List TNode) (h : ∃ c ∈ cs, c.data.visits = 0) :
    (hIdxCore score pv cs).1 = cs.findIdx (fun c => c.data.visits == 0) ∧
      (hIdxCore score pv cs).2.2 = true := by
  cases cs with
  | nil => simp at h
  | cons c rest =>
    by_cases h0 : c.data.visits = 0
    · simp [hIdxCore, h0, List.findIdx_cons]
    · have hcs : ∃ x ∈ rest, x.data.visits = 0 := by
        rcases h with ⟨x, hx, hx0⟩
        rcases List.mem_cons.mp hx with h1 | h1
        · subst h1; exact absurd hx0 h0
        · exact ⟨x, h1, hx0⟩
      have hh := hGo_zero_shortcircuit score pv rest 1 0
        (score pv c.data.visits c.data.winScore) [(pv, c.data.visits)] hcs
      have h0b : (c.data.visits == 0) = false := by simpa using h0
      simp only [hIdxCore, h0, if_false, List.findIdx_cons, h0b, cond_false]
      exact ⟨by rw [hh.1]; omega, hh.2⟩

theorem hGo_no_zero {R : Type} [LinearOrder R] (score : ℕ → ℕ → ℚ → R) (pv : ℕ)
    (rest : List TNode) : ∀ (i best : ℕ) (maxVal : R) (evals : List (ℕ × ℕ)),
      (∀ c ∈ rest, c.data.visits ≠ 0) →
      (hGo score pv rest i best maxVal evals).2.2 = false := by
  induction rest with
  | nil => intro i best maxVal evals _; simp [hGo]
  | cons c cs ih =>
    intro i best maxVal evals h
    have h0 : c.data.visits ≠ 0 := h c (List.mem_cons_self c cs)
    have hcs : ∀ x ∈ cs, x.data.visits ≠ 0 := fun x hx => h x (List.mem_cons_of_mem c hx)
    simp only [hGo, h0, if_false]
    by_cases hlt : maxVal < score pv c.data.visits c.data.winScore
    · simpa only [if_pos hlt] using ih (i + 1) i
        (score pv c.data.visits c.data.winScore) ((pv, c.data.visits) :: evals) hcs
    · simpa only [if_neg hlt] using ih (i + 1) best maxVal
        ((pv, c.data.visits) :: evals) hcs

theorem hIdxCore_no_zero {R : Type} [LinearOrder R] (score : ℕ → ℕ → ℚ → R) (pv : ℕ)
    (cs : List TNode) (h : ∀ c ∈ cs, c.data.visits ≠ 0) :
    (hIdxCore score pv cs).2.2 = false := by
  cases cs with
  | nil => simp [hIdxCore]
  | cons c rest =>
    have h0 : c.data.visits ≠ 0 := h c (List.mem_cons_self c rest)
    simp only [hIdxCore, h0, if_false]
    exact hGo_no_zero score pv rest 1 0 _ _ fun x hx => h x (List.mem_cons_of_mem c hx)

/-- Tree bookkeeping invariant maintained by the search: every node has at
least as many visits as children (each child creation seeded the parent once)
and every child has at least one visit (it was seeded at creation). -/
def treeInvB (n : TNode) : Bool :=
  match n with
  | .mk d cs =>
    decide (cs.length ≤ d.visits) &&
      cs.attach.all fun c => decide (1 ≤ c.1.data.visits) && treeInvB c.1
termination_by sizeOf n
decreasing_by
  rename_i cs c
  have hlt := List.sizeOf_lt_of_mem c.2
  simp only [TNode.mk.sizeOf_spec]
  omega

theorem treeInvB_iff (d : NodeData) (cs : List TNode) :
    treeInvB (.mk d cs) = true ↔
      cs.length ≤ d.visits ∧ ∀ c ∈ cs, 1 ≤ c.data.visits ∧ treeInvB c = true := by
  rw [treeInvB]
  simp [List.all_eq_true]

theorem descendCore_target {R : Type} [LinearOrder R] (score : ℕ → ℕ → ℚ → R) (n : TNode) :
    ∃ t, getNode? n (descendCore score n).1 = some t ∧ t.children = [] := by
  induction n using descendCore.induct score with
  | case1 d cs hemp =>
    rw [descendCore]
    simp only [hemp, if_true]
    exact ⟨.mk d cs, rfl, by simpa using hemp⟩
  | case2 d cs hemp r hi ih =>
    rw [descendCore]
    simp only [hemp, if_false, dif_pos hi]
    rcases ih with ⟨t, ht, hc⟩
    refine ⟨t, ?_, hc⟩
    simp only [getNode?, TNode.children_mk]
    rw [List.getElem?_eq_getElem hi]
    simpa [List.get_eq_getElem] using ht
  | case3 d cs hemp r hi =>
    exact absurd (hIdxCore_idx_lt score d.visits cs (by simpa using hemp)) hi

theorem descendCore_evals_pos {R : Type} [LinearOrder R] (score : ℕ → ℕ → ℚ → R)
    (n : TNode) : treeInvB n = true →
    ∀ pr ∈ (descendCore score n).2.1, 0 < pr.1 ∧ 0 < pr.2 := by
  induction n using descendCore.induct score with
  | case1 d cs hemp =>
    intro _ pr hpr
    rw [descendCore] at hpr
    simp [hemp] at hpr
  | case2 d cs hemp r hi ih =>
    intro hinv pr hpr
    rw [descendCore] at hpr
    simp only [hemp, if_false, dif_pos hi] at hpr
    rcases (treeInvB_iff d cs).mp hinv with ⟨hlen, hkids⟩
    have hne : cs ≠ [] := by simpa using hemp
    have hvis : 0 < d.visits := by
      have : 0 < cs.length := List.length_pos.mpr hne
      omega
    rcases List.mem_append.mp hpr with h1 | h1
    · have := hIdxCore_evals_pos score d.visits cs pr h1
      exact ⟨this.1 ▸ hvis, this.2⟩
    · have hmem : cs.get ⟨r.1, hi⟩ ∈ cs := List.get_mem cs _ _
      exact ih ((hkids _ hmem).2) pr h1
  | case3 d cs hemp r hi =>
    exact absurd (hIdxCore_idx_lt score d.visits cs (by simpa using hemp)) hi

theorem descendCore_no_zero {R : Type} [LinearOrder R] (score : ℕ → ℕ → ℚ → R)
    (n : TNode) : treeInvB n = true → (descendCore score n).2.2 = false := by
  induction n using descendCore.induct score with
  | case1 d cs hemp =>
    intro _
    rw [descendCore]
    simp [hemp]
  | case2 d cs hemp r hi ih =>
    intro hinv
    rw [descendCore]
    simp only [hemp, if_false, dif_pos hi]
    rcases (treeInvB_iff d cs).mp hinv with ⟨hlen, hkids⟩
    have h1 : (hIdxCore score d.visits cs).2.2 = false :=
      hIdxCore_no_zero score d.visits cs fun c hc => by
        have := (hkids c hc).1; omega
    have hmem : cs.get ⟨r.1, hi⟩ ∈ cs := List.get_mem cs _ _
    have h2 := ih ((hkids _ hmem).2)
    rw [List.get_eq_getElem] at h2
    simp [h1, h2]
  | case3 d cs hemp r hi =>
    exact absurd (hIdxCore_idx_lt score d.visits cs (by simpa using hemp)) hi

theorem promising_target {R : Type} [LinearOrder R] (score : ℕ → ℕ → ℚ → R) (n : TNode) :
    ∃ t, getNode? n (promisingPath score n) = some t ∧
      (t.children = [] ∨ t.data.gameOver = true) := by
  by_cases hg : n.data.gameOver
  · exact ⟨n, by simp [promisingPath, promisingCore, hg, getNode?], Or.inr hg⟩
  · rcases descendCore_target score n with ⟨t, ht, hc⟩
    exact ⟨t, by simpa [promisingPath, promisingCore, hg] using ht, Or.inl hc⟩

theorem promisingEvals_pos {R : Type} [LinearOrder R] (score : ℕ → ℕ → ℚ → R) (n : TNode)
    (hinv : treeInvB n = true) : ∀ pr ∈ promisingEvals score n, 0 < pr.1 ∧ 0 < pr.2 := by
  by_cases hg : n.data.gameOver
  · simp [promisingEvals, promisingCore, hg]
  · intro pr hpr
    refine descendCore_evals_pos score n hinv pr ?_
    simpa [promisingEvals, promisingCore, hg] using hpr

theorem promisingZeroHit_false {R : Type} [LinearOrder R] (score : ℕ → ℕ → ℚ → R)
    (n : TNode) (hinv : treeInvB n = true) : promisingZeroHit score n = false := by
  by_cases hg : n.data.gameOver
  · simp [promisingZeroHit, promisingCore, hg]
  · simpa [promisingZeroHit, promisingCore, hg] using descendCore_no_zero score n hinv

/-- Fields of `treeNode` that seeding and backpropagation never touch. -/
def sameStatic (d d2 : NodeData) : Prop :=
  d2.side = d.side ∧ d2.gameOver = d.gameOver ∧ d2.boardRef = d.boardRef ∧
    d2.depth = d.depth ∧ d2.move = d.move ∧ d2.winner = d.winner

theorem sameStatic_refl (d : NodeData) : sameStatic d d :=
  ⟨rfl, rfl, rfl, rfl, rfl, rfl⟩

theorem sameStatic_trans {d d2 d3 : NodeData} (h1 : sameStatic d d2)
    (h2 : sameStatic d2 d3) : sameStatic d d3 := by
  obtain ⟨a1, b1, c1, e1, f1, g1⟩ := h1
  obtain ⟨a2, b2, c2, e2, f2, g2⟩ := h2
  exact ⟨a2.trans a1, b2.trans b1, c2.trans c1, e2.trans e1, f2.trans f1, g2.trans g1⟩

theorem seedData_static (d : NodeData) (s : ℤ) (e : ℚ) : sameStatic d (seedData d s e) :=
  ⟨rfl, rfl, rfl, rfl, rfl, rfl⟩

theorem seedData_visits (d : NodeData) (s : ℤ) (e : ℚ) :
    (seedData d s e).visits = d.visits + 1 := rfl

theorem applyDeltas_cons (p : ℤ × ℚ) (ps : List (ℤ × ℚ)) (d : NodeData) :
    applyDeltas (p :: ps) d = applyDeltas ps (seedData d p.1 p.2) := rfl

theorem applyDeltas_spec (ds : List (ℤ × ℚ)) : ∀ d : NodeData,
    (applyDeltas ds d).visits = d.visits + ds.length ∧ sameStatic d (applyDeltas ds d) := by
  induction ds with
  | nil => intro d; exact ⟨rfl, sameStatic_refl d⟩
  | cons p ps ih =>
    intro d
    rw [applyDeltas_cons]
    rcases ih (seedData d p.1 p.2) with ⟨hv, hs⟩
    constructor
    · rw [hv, seedData_visits]; simp; omega
    · exact sameStatic_trans (seedData_static d p.1 p.2) hs

theorem expandMoves_spec (ev : Evaluator) (np : ℤ) (ms : List Move) :
    ∀ (store : Store) (n n2 : TNode) (s2 : Store) (ds : List (ℤ × ℚ)),
      expandMoves ev np ms store n = .ok (n2, s2, ds) →
      storeExtends store s2 ∧
        n2.data.visits = n.data.visits + ms.length ∧
        n2.children.length = n.children.length + ms.length ∧
        (∀ c ∈ n2.children, c ∈ n.children ∨ (c.data.visits = 1 ∧ c.children = [])) ∧
        sameStatic n.data n2.data ∧
        ds.length = ms.length := by
  induction ms with
  | nil =>
    intro store n n2 s2 ds h
    simp only [expandMoves, Except.ok.injEq, Prod.mk.injEq] at h
    obtain ⟨h1, h2, h3⟩ := h
    subst h1; subst h2; subst h3
    exact ⟨storeExtends_refl store, by simp, by simp, fun c hc => Or.inl hc,
      sameStatic_refl _, rfl⟩
  | cons m ms ih =>
    intro store n n2 s2 ds h
    rw [expandMoves] at h
    split at h
    · exact absurd h (by simp)
    · rename_i go w b2 happ
      dsimp only [] at h
      split at h
      · exact absurd h (by simp)
      · rename_i n3 s3 ds3 hrec
        simp only [Except.ok.injEq, Prod.mk.injEq] at h
        obtain ⟨h1, h2, h3⟩ := h
        subst h1; subst h2; subst h3
        have hext0 : storeExtends store
            (setBoard (store ++ [getBoard store n.data.boardRef]) store.length b2) :=
          storeExtends_setFresh store.length b2 (storeExtends_alloc store _) (le_refl _)
        rcases ih _ _ _ _ _ hrec with ⟨hext, hvis, hlen, hmem, hstat, hds⟩
        refine ⟨storeExtends_trans hext0 (by simpa [copyBoard, allocBoard] using hext),
          ?_, ?_, ?_, ?_, by simpa using hds⟩
        · rw [hvis]; simp [seedData_visits]; omega
        · rw [hlen]; simp; omega
        · intro c hc
          rcases hmem c hc with h1 | h1
          · simp only [TNode.children_mk] at h1
            rcases List.mem_append.mp h1 with h2 | h2
            · exact Or.inl h2
            · simp only [List.mem_singleton] at h2
              subst h2
              exact Or.inr ⟨rfl, rfl⟩
          · exact Or.inr h1
        · exact sameStatic_trans (by simpa using seedData_static n.data np m.eval)
            (by simpa using hstat)

theorem treeInvB_iff2 (t : TNode) :
    treeInvB t = true ↔
      t.children.length ≤ t.data.visits ∧
        ∀ c ∈ t.children, 1 ≤ c.data.visits ∧ treeInvB c = true := by
  cases t
  exact treeInvB_iff _ _

theorem expandLocal_spec (ev : Evaluator) (ex : Expander) (maxDepth : ℤ) (store : Store)
    (n n2 : TNode) (s2 : Store) (ds : List (ℤ × ℚ))
    (h : expandLocal ev ex maxDepth store n = .ok (n2, s2, ds)) :
    storeExtends store s2 ∧ n.data.visits ≤ n2.data.visits ∧
      sameStatic n.data n2.data ∧
      (∀ c ∈ n2.children, c ∈ n.children ∨ (c.data.visits = 1 ∧ c.children = [])) ∧
      n2.children.length + n.data.visits = n.children.length + n2.data.visits := by
  unfold expandLocal at h
  split at h
  · simp only [Except.ok.injEq, Prod.mk.injEq] at h
    obtain ⟨h1, h2, h3⟩ := h
    subst h1; subst h2
    exact ⟨storeExtends_refl store, le_refl _, sameStatic_refl _,
      fun c hc => Or.inl hc, by omega⟩
  · split at h
    · simp only [Except.ok.injEq, Prod.mk.injEq] at h
      obtain ⟨h1, h2, h3⟩ := h
      subst h1; subst h2
      exact ⟨storeExtends_refl store, le_refl _, sameStatic_refl _,
        fun c hc => Or.inl hc, by omega⟩
    · rcases expandMoves_spec ev _ _ _ _ _ _ _ h with ⟨hext, hvis, hlen, hmem, hstat, _⟩
      exact ⟨hext, by omega, hstat, hmem, by omega⟩

theorem expandLocal_inv (ev : Evaluator) (ex : Expander) (maxDepth : ℤ) (store : Store)
    (n n2 : TNode) (s2 : Store) (ds : List (ℤ × ℚ))
    (h : expandLocal ev ex maxDepth store n = .ok (n2, s2, ds))
    (hinv : treeInvB n = true) : treeInvB n2 = true := by
  rcases expandLocal_spec ev ex maxDepth store n n2 s2 ds h with
    ⟨_, hvis, _, hmem, hlen⟩
  rcases (treeInvB_iff2 n).mp hinv with ⟨hl, hk⟩
  refine (treeInvB_iff2 n2).mpr ⟨by omega, ?_⟩
  intro c hc
  rcases hmem c hc with h1 | h1
  · exact hk c h1
  · refine ⟨by omega, ?_⟩
    refine (treeInvB_iff2 c).mpr ?_
    rw [h1.2]
    exact ⟨by simp, by simp⟩

theorem expandAt_spec (ev : Evaluator) (ex : Expander) (maxDepth : ℤ) :
    ∀ (p : List ℕ) (store : Store) (n n2 : TNode) (s2 : Store) (ds : List (ℤ × ℚ)),
      expandAt ev ex maxDepth store n p = .ok (n2, s2, ds) →
      storeExtends store s2 ∧ n.data.visits ≤ n2.data.visits ∧
        (treeInvB n = true → treeInvB n2 = true) := by
  intro p
  induction p with
  | nil =>
    intro store n n2 s2 ds h
    rcases expandLocal_spec ev ex maxDepth store n n2 s2 ds h with ⟨hext, hvis, _, _, _⟩
    exact ⟨hext, hvis, expandLocal_inv ev ex maxDepth store n n2 s2 ds h⟩
  | cons i p ih =>
    intro store n n2 s2 ds h
    rw [expandAt] at h
    split at h
    · simp only [Except.ok.injEq, Prod.mk.injEq] at h
      obtain ⟨h1, h2, h3⟩ := h
      subst h1; subst h2
      exact ⟨storeExtends_refl store, le_refl _, fun hv => hv⟩
    · rename_i c hget
      split at h
      · exact absurd h (by simp)
      · rename_i c2 s3 ds3 hrec
        simp only [Except.ok.injEq, Prod.mk.injEq] at h
        obtain ⟨h1, h2, h3⟩ := h
        subst h1; subst h2; subst h3
        rcases ih store c c2 s3 ds3 hrec with ⟨hext, hvis, hinvc⟩
        refine ⟨hext, ?_, ?_⟩
        · simp only [TNode.data_mk]
          rw [(applyDeltas_spec ds3 n.data).1]
          omega
        · intro hinv
          rcases (treeInvB_iff2 n).mp hinv with ⟨hl, hk⟩
          have hcmem : c ∈ n.children := List.getElem?_mem hget
          refine (treeInvB_iff2 _).mpr ?_
          simp only [TNode.data_mk, TNode.children_mk, List.length_set]
          rw [(applyDeltas_spec ds3 n.data).1]
          refine ⟨by omega, ?_⟩
          intro x hx
          rcases List.mem_or_eq_of_mem_set hx with h1 | h1
          · exact hk x h1
          · subst h1
            have h2 := hk c hcmem
            exact ⟨le_trans h2.1 hvis, hinvc h2.2⟩

theorem setWinnerAt_spec (w : ℤ) : ∀ (p : List ℕ) (t : TNode),
    (setWinnerAt t p w).data.visits = t.data.visits ∧
      (treeInvB t = true → treeInvB (setWinnerAt t p w) = true) := by
  intro p
  induction p with
  | nil =>
    intro t
    cases t with
    | mk d cs =>
      constructor
      · rfl
      · intro hinv
        rcases (treeInvB_iff d cs).mp hinv with ⟨hl, hk⟩
        exact (treeInvB_iff _ cs).mpr ⟨hl, hk⟩
  | cons i p ih =>
    intro t
    cases t with
    | mk d cs =>
      rw [setWinnerAt]
      split
      · exact ⟨rfl, fun hv => hv⟩
      · rename_i c hget
        constructor
        · rfl
        · intro hinv
          rcases (treeInvB_iff d cs).mp hinv with ⟨hl, hk⟩
          refine (treeInvB_iff d _).mpr ?_
          rw [List.length_set]
          refine ⟨hl, ?_⟩
          intro x hx
          rcases List.mem_or_eq_of_mem_set hx with h1 | h1
          · exact hk x h1
          · subst h1
            have hcmem : c ∈ cs := List.getElem?_mem hget
            have h2 := hk c hcmem
            exact ⟨by rw [(ih c).1]; exact h2.1, (ih c).2 h2.2⟩

theorem backpropWith_inv (w : ℤ) : ∀ (p : List ℕ) (t : TNode),
    t.data.visits ≤ (backpropWith w t p).data.visits ∧
      (treeInvB t = true → treeInvB (backpropWith w t p) = true) := by
  intro p
  induction p with
  | nil =>
    intro t
    cases t with
    | mk d cs =>
      constructor
      · simp [backpropWith, bumpData]
      · intro hinv
        rcases (treeInvB_iff d cs).mp hinv with ⟨hl, hk⟩
        refine (treeInvB_iff _ cs).mpr ⟨?_, hk⟩
        simp [bumpData]
        omega
  | cons i p ih =>
    intro t
    cases t with
    | mk d cs =>
      rw [backpropWith]
      split
      · constructor
        · simp [bumpData]
        · intro hinv
          rcases (treeInvB_iff d cs).mp hinv with ⟨hl, hk⟩
          refine (treeInvB_iff _ cs).mpr ⟨?_, hk⟩
          simp [bumpData]
          omega
      · rename_i c hget
        constructor
        · simp [bumpData]
        · intro hinv
          rcases (treeInvB_iff d cs).mp hinv with ⟨hl, hk⟩
          refine (treeInvB_iff _ _).mpr ?_
          rw [List.length_set]
          constructor
          · simp [bumpData]; omega
          · intro x hx
            rcases List.mem_or_eq_of_mem_set hx with h1 | h1
            · exact hk x h1
            · subst h1
              have hcmem : c ∈ cs := List.getElem?_mem hget
              have h2 := hk c hcmem
              exact ⟨le_trans h2.1 (ih c).1, (ih c).2 h2.2⟩

theorem playoutLoop_store (ev : Evaluator) : ∀ (fuel rng : ℕ) (store : Store)
    (ref : BoardRef) (turn cw w : ℤ) (reason : StopReason) (rng2 : ℕ) (s2 : Store),
    playoutLoop ev fuel rng store ref turn cw = some (.ok (w, reason, rng2, s2)) →
    s2.length = store.length ∧ ∀ r, r ≠ ref → getBoard s2 r = getBoard store r := by
  intro fuel
  induction fuel with
  | zero =>
    intro rng store ref turn cw w reason rng2 s2 h
    simp [playoutLoop] at h
  | succ fuel ih =>
    intro rng store ref turn cw w reason rng2 s2 h
    rw [playoutLoop] at h
    split at h
    · simp only [Option.some.injEq, Except.ok.injEq, Prod.mk.injEq] at h
      obtain ⟨-, -, -, h4⟩ := h
      subst h4
      exact ⟨rfl, fun r _ => rfl⟩
    · rename_i m hrm
      split at h
      · exact absurd h (by simp)
      · rename_i go w2 b2 happ
        split at h
        · simp only [Option.some.injEq, Except.ok.injEq, Prod.mk.injEq] at h
          obtain ⟨-, -, -, h4⟩ := h
          subst h4
          refine ⟨length_setBoard store ref b2, ?_⟩
          intro r hr
          exact getBoard_setBoard_ne store b2 fun he => hr he.symm
        · rcases ih _ _ _ _ _ _ _ _ _ h with ⟨hlen, hpt⟩
          refine ⟨hlen.trans (length_setBoard store ref b2), ?_⟩
          intro r hr
          rw [hpt r hr]
          exact getBoard_setBoard_ne store b2 fun he => hr he.symm

theorem playoutLoop_noMove (ev : Evaluator) : ∀ (fuel rng : ℕ) (store : Store)
    (ref : BoardRef) (turn cw w : ℤ) (rng2 : ℕ) (s2 : Store),
    playoutLoop ev fuel rng store ref turn cw = some (.ok (w, .noMove, rng2, s2)) →
    w = cw := by
  intro fuel
  induction fuel with
  | zero =>
    intro rng store ref turn cw w rng2 s2 h
    simp [playoutLoop] at h
  | succ fuel ih =>
    intro rng store ref turn cw w rng2 s2 h
    rw [playoutLoop] at h
    split at h
    · simp only [Option.some.injEq, Except.ok.injEq, Prod.mk.injEq] at h
      exact h.1.symm
    · rename_i m hrm
      split at h
      · exact absurd h (by simp)
      · rename_i go w2 b2 happ
        split at h
        · simp only [Option.some.injEq, Except.ok.injEq, Prod.mk.injEq] at h
          exact absurd h.2.1 (by simp)
        · exact ih _ _ _ _ _ _ _ _ h

theorem randomPlayOut_store (ev : Evaluator) (fuel rng : ℕ) (store : Store) (n : TNode)
    (w : ℤ) (reason : StopReason) (rng2 : ℕ) (s2 : Store)
    (h : randomPlayOut ev fuel rng store n = some (.ok (w, reason, rng2, s2))) :
    storeExtends store s2 := by
  unfold randomPlayOut at h
  split at h
  · simp only [Option.some.injEq, Except.ok.injEq, Prod.mk.injEq] at h
    obtain ⟨-, -, -, h4⟩ := h
    subst h4
    exact storeExtends_refl store
  · rcases playoutLoop_store ev fuel rng _ _ _ _ _ _ _ _ h with ⟨hlen, hpt⟩
    constructor
    · rw [hlen]; simp [copyBoard, allocBoard]
    · intro r hr
      have href : (copyBoard store n.data.boardRef).1 = store.length := rfl
      rw [hpt r (by rw [href]; exact Nat.ne_of_lt hr)]
      exact (storeExtends_alloc store _).2 r hr

theorem randomPlayOut_noMove (ev : Evaluator) (fuel rng : ℕ) (store : Store) (n : TNode)
    (w : ℤ) (rng2 : ℕ) (s2 : Store)
    (h : randomPlayOut ev fuel rng store n = some (.ok (w, .noMove, rng2, s2))) :
    w = n.data.winner := by
  unfold randomPlayOut at h
  split at h
  · simp only [Option.some.injEq, Except.ok.injEq, Prod.mk.injEq] at h
    exact absurd h.2.1 (by simp)
  · exact playoutLoop_noMove ev fuel rng _ _ _ _ _ _ _ h

theorem searchIter_spec {R : Type} [LinearOrder R] (ev : Evaluator) (ex : Expander)
    (maxDepth : ℤ) (score : ℕ → ℕ → ℚ → R) (fuel : ℕ) (st st2 : SState)
    (h : searchIter ev ex maxDepth score fuel st = some (.ok st2)) :
    storeExtends st.store st2.store ∧
      (treeInvB st.root = true → treeInvB st2.root = true) := by
  unfold searchIter at h
  dsimp only [] at h
  split at h
  · exact absurd h (by simp)
  · rename_i root1 store1 ds hexp
    split at h
    · exact absurd h (by simp)
    · rename_i nd hget
      split at h
      · exact absurd h (by simp)
      · exact absurd h (by simp)
      · rename_i w reason rng2 store2 hroll
        simp only [Option.some.injEq, Except.ok.injEq] at h
        subst h
        rcases expandAt_spec ev ex maxDepth _ _ _ _ _ _ hexp with ⟨hext1, _, hinv1⟩
        constructor
        · exact storeExtends_trans hext1
            (randomPlayOut_store ev fuel st.rng store1 nd w reason rng2 store2 hroll)
        · intro hinv
          have h1 := hinv1 hinv
          have h2 := (setWinnerAt_spec w
            (firstChildPath root1 (promisingPath score st.root)) root1).2 h1
          exact (backpropWith_inv _ _ _).2 h2

theorem searchLoop_spec {R : Type} [LinearOrder R] (ev : Evaluator) (ex : Expander)
    (maxDepth : ℤ) (score : ℕ → ℕ → ℚ → R) (fuel : ℕ) (maxIters : ℤ)
    (oracle : List Bool) (iter : ℕ) (st : SState) :
    ∀ (st2 : SState) (n : ℕ),
      searchLoop ev ex maxDepth score fuel maxIters oracle iter st = some (.ok (st2, n)) →
      storeExtends st.store st2.store ∧
        (treeInvB st.root = true → treeInvB st2.root = true) := by
  induction oracle, iter, st using searchLoop.induct ev ex maxDepth score fuel maxIters with
  | case1 oracle iter st hc hb =>
    intro st2 n h
    rw [searchLoop, dif_pos hc, if_pos hb] at h
    simp only [Option.some.injEq, Except.ok.injEq, Prod.mk.injEq] at h
    obtain ⟨h1, -⟩ := h
    subst h1
    exact ⟨storeExtends_refl _, fun hv => hv⟩
  | case2 oracle iter st hc hb hit =>
    intro st2 n h
    rw [searchLoop, dif_pos hc, if_neg hb] at h
    rw [hit] at h
    exact absurd h (by simp)
  | case3 oracle iter st hc hb e hit =>
    intro st2 n h
    rw [searchLoop, dif_pos hc, if_neg hb] at h
    rw [hit] at h
    exact absurd h (by simp)
  | case4 oracle iter st hc hb st3 hit ih =>
    intro st2 n h
    rw [searchLoop, dif_pos hc, if_neg hb] at h
    rw [hit] at h
    rcases ih st2 n h with ⟨hext, hinv⟩
    rcases searchIter_spec ev ex maxDepth score fuel st st3 hit with ⟨hext0, hinv0⟩
    exact ⟨storeExtends_trans hext0 hext, fun hv => hinv (hinv0 hv)⟩
  | case5 oracle iter st hc =>
    intro st2 n h
    rw [searchLoop, dif_neg hc] at h
    simp only [Option.some.injEq, Except.ok.injEq, Prod.mk.injEq] at h
    obtain ⟨h1, -⟩ := h
    subst h1
    exact ⟨storeExtends_refl _, fun hv => hv⟩

theorem searchLoop_count {R : Type} [LinearOrder R] (ev : Evaluator) (ex : Expander)
    (maxDepth : ℤ) (score : ℕ → ℕ → ℚ → R) (fuel : ℕ) (maxIters : ℤ)
    (oracle : List Bool) (iter : ℕ) (st : SState) :
    ∀ (st2 : SState) (n : ℕ), 1 ≤ iter →
      searchLoop ev ex maxDepth score fuel maxIters oracle iter st = some (.ok (st2, n)) →
      iter ≤ n ∧ (0 < maxIters → (iter : ℤ) ≤ maxIters → (n : ℤ) ≤ maxIters) ∧
        (maxIters ≤ 0 → n = iter + (oracle.takeWhile id).length) := by
  induction oracle, iter, st using searchLoop.induct ev ex maxDepth score fuel maxIters with
  | case1 oracle iter st hc hb =>
    intro st2 n h1 h
    rw [searchLoop, dif_pos hc, if_pos hb] at h
    simp only [Option.some.injEq, Except.ok.injEq, Prod.mk.injEq] at h
    obtain ⟨-, h2⟩ := h
    subst h2
    refine ⟨le_refl _, fun _ hle => hle, fun hm0 => absurd hb.1 (by omega)⟩
  | case2 oracle iter st hc hb hit =>
    intro st2 n h1 h
    rw [searchLoop, dif_pos hc, if_neg hb] at h
    rw [hit] at h
    exact absurd h (by simp)
  | case3 oracle iter st hc hb e hit =>
    intro st2 n h1 h
    rw [searchLoop, dif_pos hc, if_neg hb] at h
    rw [hit] at h
    exact absurd h (by simp)
  | case4 oracle iter st hc hb st3 hit ih =>
    intro st2 n h1 h
    rw [searchLoop, dif_pos hc, if_neg hb] at h
    rw [hit] at h
    have hi0 : ¬ iter = 0 := by omega
    have hhead : oracle.headD false = true := by
      rcases hc with hcc | hcc
      · exact absurd hcc hi0
      · exact hcc
    rcases ih st2 n (by omega) (by simpa [hi0] using h) with ⟨ha, hbnd, hdur⟩
    refine ⟨by omega, ?_, ?_⟩
    · intro hmi hle
      refine hbnd hmi ?_
      have : ¬ (maxIters ≤ (iter : ℤ)) := fun hh => hb ⟨hmi, hh⟩
      omega
    · intro hm0
      cases oracle with
      | nil => simp at hhead
      | cons b rest =>
        simp only [List.headD_cons] at hhead
        subst hhead
        have hdur2 := hdur hm0
        simp only [dif_neg hi0, List.tail_cons] at hdur2
        rw [hdur2]
        simp only [List.takeWhile_cons, id, if_pos]
        simp [List.length_cons]
        omega
  | case5 oracle iter st hc =>
    intro st2 n h1 h
    rw [searchLoop, dif_neg hc] at h
    simp only [Option.some.injEq, Except.ok.injEq, Prod.mk.injEq] at h
    obtain ⟨-, h2⟩ := h
    subst h2
    push_neg at hc
    refine ⟨le_refl _, fun _ hle => hle, ?_⟩
    intro hm0
    cases oracle with
    | nil => simp
    | cons b rest =>
      have hb2 := hc.2
      simp only [List.headD_cons] at hb2
      simp [List.takeWhile, hb2]

theorem searchLoop_count_zero {R : Type} [LinearOrder R] (ev : Evaluator) (ex : Expander)
    (maxDepth : ℤ) (score : ℕ → ℕ → ℚ → R) (fuel : ℕ) (maxIters : ℤ)
    (oracle : List Bool) (st st2 : SState) (n : ℕ)
    (h : searchLoop ev ex maxDepth score fuel maxIters oracle 0 st = some (.ok (st2, n))) :
    1 ≤ n ∧ (0 < maxIters → (n : ℤ) ≤ maxIters) ∧
      (maxIters ≤ 0 → n = 1 + (oracle.takeWhile id).length) := by
  rw [searchLoop] at h
  rw [dif_pos (Or.inl rfl)] at h
  rw [if_neg (by push_cast; omega)] at h
  cases hit : searchIter ev ex maxDepth score fuel st with
  | none => rw [hit] at h; exact absurd h (by simp)
  | some r =>
    cases r with
    | error e => rw [hit] at h; exact absurd h (by simp)
    | ok st3 =>
      rw [hit] at h
      simp only [if_pos rfl] at h
      rcases searchLoop_count ev ex maxDepth score fuel maxIters oracle 1 st3 st2 n
        (le_refl 1) h with ⟨ha, hbnd, hdur⟩
      exact ⟨ha, fun hmi => hbnd hmi (by omega), hdur⟩

theorem bestGo_spec (cs : List TNode) : ∀ res : TNode,
    (bestGo res res.data.visits cs = res ∧ ∀ c ∈ cs, c.data.visits ≤ res.data.visits) ∨
      (∃ i r, cs[i]? = some r ∧ bestGo res res.data.visits cs = r ∧
        res.data.visits < r.data.visits ∧
        (∀ c ∈ cs, c.data.visits ≤ r.data.visits) ∧
        (∀ (j : ℕ) (x : TNode), j < i → cs[j]? = some x → x.data.visits < r.data.visits)) := by
  induction cs with
  | nil => intro res; exact Or.inl ⟨rfl, by simp⟩
  | cons c cs ih =>
    intro res
    rw [bestGo]
    by_cases hlt : res.data.visits < c.data.visits
    · rw [if_pos hlt]
      rcases ih c with ⟨h1, h2⟩ | ⟨i, r, hget, hres, hlt2, hmax, hfirst⟩
      · right
        refine ⟨0, c, by simp, h1, hlt, ?_, ?_⟩
        · intro x hx
          rcases List.mem_cons.mp hx with h3 | h3
          · subst h3; exact le_refl _
          · exact h2 x h3
        · intro j x hj
          omega
      · right
        refine ⟨i + 1, r, by simpa using hget, hres, lt_trans hlt hlt2, ?_, ?_⟩
        · intro x hx
          rcases List.mem_cons.mp hx with h3 | h3
          · subst h3; exact le_of_lt hlt2
          · exact hmax x h3
        · intro j x hj hget2
          cases j with
          | zero =>
            simp only [List.getElem?_cons_zero, Option.some.injEq] at hget2
            subst hget2
            exact hlt2
          | succ j =>
            simp only [List.getElem?_cons_succ] at hget2
            exact hfirst j x (by omega) hget2
    · rw [if_neg hlt]
      rcases ih res with ⟨h1, h2⟩ | ⟨i, r, hget, hres, hlt2, hmax, hfirst⟩
      · left
        refine ⟨h1, ?_⟩
        intro x hx
        rcases List.mem_cons.mp hx with h3 | h3
        · subst h3; exact le_of_not_lt hlt
        · exact h2 x h3
      · right
        refine ⟨i + 1, r, by simpa using hget, hres, hlt2, ?_, ?_⟩
        · intro x hx
          rcases List.mem_cons.mp hx with h3 | h3
          · subst h3; exact le_of_lt (lt_of_le_of_lt (le_of_not_lt hlt) hlt2)
          · exact hmax x h3
        · intro j x hj hget2
          cases j with
          | zero =>
            simp only [List.getElem?_cons_zero, Option.some.injEq] at hget2
            subst hget2
            exact lt_of_le_of_lt (le_of_not_lt hlt) hlt2
          | succ j =>
            simp only [List.getElem?_cons_succ] at hget2
            exact hfirst j x (by omega) hget2

theorem bestChild_spec (n : TNode) (c0 : TNode) (cs : List TNode)
    (h : n.children = c0 :: cs) :
    ∃ i r, n.children[i]? = some r ∧ bestChild n = some r ∧
      (∀ c ∈ n.children, c.data.visits ≤ r.data.visits) ∧
      (∀ (j : ℕ) (x : TNode), j < i → n.children[j]? = some x → x.data.visits < r.data.visits) := by
  unfold bestChild
  rw [h]
  rcases bestGo_spec cs c0 with ⟨h1, h2⟩ | ⟨i, r, hget, hres, hlt2, hmax, hfirst⟩
  · refine ⟨0, c0, by simp, by exact congrArg some h1, ?_, ?_⟩
    · intro x hx
      rcases List.mem_cons.mp hx with h3 | h3
      · subst h3; exact le_refl _
      · exact h2 x h3
    · intro j x hj
      omega
  · refine ⟨i + 1, r, by simpa using hget, by exact congrArg some hres, ?_, ?_⟩
    · intro x hx
      rcases List.mem_cons.mp hx with h3 | h3
      · subst h3; exact le_of_lt hlt2
      · exact hmax x h3
    · intro j x hj hget2
      cases j with
      | zero =>
        simp only [List.getElem?_cons_zero, Option.some.injEq] at hget2
        subst hget2
        exact hlt2
      | succ j =>
        simp only [List.getElem?_cons_succ] at hget2
        exact hfirst j x (by omega) hget2

@[simp] theorem getNode?_nil (t : TNode) : getNode? t [] = some t := rfl

@[simp] theorem getNode?_cons (d : NodeData) (cs : List TNode) (i : ℕ) (p : List ℕ) :
    getNode? (.mk d cs) (i :: p) = cs[i]? >>= fun c => getNode? c p := rfl

@[simp] theorem dataAt_nil (t : TNode) : dataAt t [] = some t.data := rfl

theorem dataAt_cons (d : NodeData) (cs : List TNode) (i : ℕ) (p : List ℕ) :
    dataAt (.mk d cs) (i :: p) = cs[i]? >>= fun c => dataAt c p := by
  cases hget : cs[i]? with
  | none => simp [dataAt, getNode?, hget]
  | some c => simp [dataAt, getNode?, hget]

theorem backpropWith_spec (w : ℤ) : ∀ (p : List ℕ) (t : TNode),
    (getNode? t p).isSome →
    (∀ q, q <+: p → dataAt (backpropWith w t p) q = (dataAt t q).map (bumpData w)) ∧
      (∀ q, ¬ q <+: p → dataAt (backpropWith w t p) q = dataAt t q) := by
  intro p
  induction p with
  | nil =>
    intro t _
    cases t with
    | mk d cs =>
      constructor
      · intro q hq
        rw [List.prefix_nil] at hq
        subst hq
        rfl
      · intro q hq
        cases q with
        | nil => exact absurd List.nil_prefix hq
        | cons j q2 =>
          rw [backpropWith, dataAt_cons, dataAt_cons]
  | cons i p ih =>
    intro t hsome
    cases t with
    | mk d cs =>
      rw [backpropWith]
      cases hget : cs[i]? with
      | none =>
        exfalso
        rw [getNode?_cons, hget] at hsome
        simp at hsome
      | some c =>
        have hlt : i < cs.length := by
          by_contra hge
          rw [List.getElem?_eq_none (by omega)] at hget
          exact absurd hget (by simp)
        have hsome2 : (getNode? c p).isSome := by
          rw [getNode?_cons, hget] at hsome
          simpa using hsome
        rcases ih c hsome2 with ⟨hpre, hoff⟩
        have hset : (cs.set i (backpropWith w c p))[i]? = some (backpropWith w c p) :=
          List.getElem?_set_self (by simpa using hlt)
        constructor
        · intro q hq
          cases q with
          | nil => rfl
          | cons j q2 =>
            rw [List.cons_prefix_cons] at hq
            obtain ⟨hj, hq2⟩ := hq
            subst hj
            rw [dataAt_cons, dataAt_cons, hset, hget]
            simpa using hpre q2 hq2
        · intro q hq
          cases q with
          | nil => exact absurd (List.nil_prefix) hq
          | cons j q2 =>
            rw [dataAt_cons, dataAt_cons]
            by_cases hj : j = i
            · subst hj
              have hq2 : ¬ q2 <+: p := by
                intro hcon
                exact hq (List.cons_prefix_cons.mpr ⟨rfl, hcon⟩)
              rw [hset, hget]
              simpa using hoff q2 hq2
            · rw [List.getElem?_set_ne (fun he => hj he.symm)]

/-- C6: whenever some child has `visits == 0`, UCB1 child selection returns
the first zero-visit child (in child order, hence before any visited child
can be chosen), independently of the score formula, and the formula is only
ever evaluated on children with `visits > 0` — never on the returned
zero-visit child. -/
theorem c6_zero_visit_priority {R : Type} [LinearOrder R] (score : ℕ → ℕ → ℚ → R)
    (pv : ℕ) (cs : List TNode) (h : ∃ c ∈ cs, c.data.visits = 0) :
    (hIdxCore score pv cs).1 = cs.findIdx (fun c => c.data.visits == 0) ∧
      (hIdxCore score pv cs).2.2 = true ∧
      (∃ hlt : (hIdxCore score pv cs).1 < cs.length,
        (cs.get ⟨(hIdxCore score pv cs).1, hlt⟩).data.visits = 0) ∧
      ∀ pr ∈ (hIdxCore score pv cs).2.1, 0 < pr.2 := by
  rcases hIdxCore_zero_shortcircuit score pv cs h with ⟨hidx, hflag⟩
  have hex : ∃ c ∈ cs, (fun c : TNode => c.data.visits == 0) c = true := by
    rcases h with ⟨c, hc, h0⟩
    exact ⟨c, hc, by simpa using h0⟩
  have hlt0 : cs.findIdx (fun c => c.data.visits == 0) < cs.length :=
    List.findIdx_lt_length_of_exists hex
  refine ⟨hidx, hflag, ⟨by rw [hidx]; exact hlt0, ?_⟩, ?_⟩
  · have hgot : (fun c : TNode => c.data.visits == 0)
        cs[cs.findIdx (fun c => c.data.visits == 0)] = true :=
      @List.findIdx_getElem TNode (fun c => c.data.visits == 0) cs hlt0
    have heq : cs.get ⟨(hIdxCore score pv cs).1, by rw [hidx]; exact hlt0⟩ =
        cs.get ⟨cs.findIdx (fun c => c.data.visits == 0), hlt0⟩ := by
      congr 1
      exact Fin.ext (by simpa using hidx)
    rw [heq, List.get_eq_getElem]
    simpa using hgot
  · intro pr hpr
    exact (hIdxCore_evals_pos score pv cs pr hpr).2

/-- A concrete pair of children whose second child is unvisited. -/
def zChildren : List TNode :=
  [TNode.mk { side := 1, move := none, winner := 0, winScore := 0, visits := 2,
              gameOver := false, boardRef := 0, depth := 1 } [],
    TNode.mk { side := 1, move := none, winner := 0, winScore := 0, visits := 0,
               gameOver := false, boardRef := 1, depth := 1 } []]

/-- C6 witness: on `zChildren` (second child unvisited) selection returns the
first zero-visit index. -/
theorem c6_witness :
    (∃ c ∈ zChildren, c.data.visits = 0) ∧
      (hIdxCore wScore 3 zChildren).1 =
        zChildren.findIdx (fun c => c.data.visits == 0) := by
  constructor
  · decide
  · exact (c6_zero_visit_priority wScore 3 zChildren (by decide)).1

/-- C8: backpropagation from the node at path `p` increments `visits` by
exactly 1 at that node and at every ancestor up to the root inclusive (every
prefix of `p`); with the recorded winner non-zero each such node's `winScore`
moves by +1 when its side is the winner and by -1 otherwise, while a recorded
draw (winner 0) leaves every `winScore` unchanged; every node off the chain
is untouched. -/
theorem c8_backpropagate_chain (t : TNode) (p : List ℕ)
    (h : (getNode? t p).isSome = true) :
    (∀ q, q <+: p → dataAt (backpropagate t p) q =
      (dataAt t q).map fun d =>
        { d with visits := d.visits + 1,
                 winScore := if winnerAt t p = 0 then d.winScore
                   else if winnerAt t p = d.side then d.winScore + 1
                   else d.winScore - 1 }) ∧
      ∀ q, ¬ q <+: p → dataAt (backpropagate t p) q = dataAt t q := by
  exact backpropWith_spec (winnerAt t p) p t h

/-- A concrete three-node tree: a root with one child that itself has one
child; the grandchild records winner 1. -/
def w8t : TNode :=
  TNode.mk { side := 2, move := none, winner := 0, winScore := 0, visits := 3,
             gameOver := false, boardRef := 0, depth := 0 }
    [TNode.mk { side := 1, move := some ⟨0, 0⟩, winner := 0, winScore := 1, visits := 2,
                gameOver := false, boardRef := 1, depth := 1 }
      [TNode.mk { side := 2, move := some ⟨1, 0⟩, winner := 1, winScore := 0, visits := 1,
                  gameOver := false, boardRef := 2, depth := 2 } []]]

/-- C8 witness: backpropagating from path `[0, 0]` of `w8t` updates exactly
the chain to the root. -/
theorem c8_witness :
    (getNode? w8t [0, 0]).isSome = true ∧
      dataAt (backpropagate w8t [0, 0]) [0] =
        (dataAt w8t [0]).map (fun d =>
          { d with visits := d.visits + 1,
                   winScore := if winnerAt w8t [0, 0] = 0 then d.winScore
                     else if winnerAt w8t [0, 0] = d.side then d.winScore + 1
                     else d.winScore - 1 }) ∧
      dataAt (backpropagate w8t [0, 0]) [1] = dataAt w8t [1] := by
  refine ⟨by decide, ?_, ?_⟩
  · exact (c8_backpropagate_chain w8t [0, 0] (by decide)).1 [0] (by decide)
  · exact (c8_backpropagate_chain w8t [0, 0] (by decide)).2 [1] (by decide)

/-- C2 (amended): expanding a terminal node is a no-op, and the node that
`Search` hands to `expand` — the result of `promisingNode` — always has an
empty children list or is terminal, so the search never re-expands an
already-expanded node.  (Re-expanding a non-terminal node that already has
children is NOT a no-op, see the counterexample.) -/
theorem c2_expand_noop {R : Type} [LinearOrder R] (score : ℕ → ℕ → ℚ → R)
    (ev : Evaluator) (ex : Expander) (maxDepth : ℤ) (store : Store) (n : TNode)
    (hterm : n.data.gameOver = true) :
    expandLocal ev ex maxDepth store n = .ok (n, store, []) ∧
      ∀ m : TNode, ∃ t, getNode? m (promisingPath score m) = some t ∧
        (t.children = [] ∨ t.data.gameOver = true) := by
  constructor
  · unfold expandLocal
    rw [if_pos hterm]
  · exact fun m => promising_target score m

/-- A second concrete heap with two boards. -/
def wStore2 : Store := [[[0]], [[0]]]

/-- A non-terminal node that was already expanded: it has one child. -/
def reNode : TNode :=
  TNode.mk { side := 2, move := none, winner := 0, winScore := 0, visits := 2,
             gameOver := false, boardRef := 0, depth := 0 }
    [TNode.mk { side := 1, move := some ⟨0, 0⟩, winner := 0, winScore := 0, visits := 1,
                gameOver := true, boardRef := 1, depth := 1 } []]

/-- A concrete terminal node. -/
def termNode : TNode :=
  TNode.mk { side := 1, move := some ⟨0, 0⟩, winner := 0, winScore := 0, visits := 1,
             gameOver := true, boardRef := 1, depth := 1 } []

/-- C2 counterexample: calling `expand` on the already-expanded, non-terminal
node `reNode` is NOT a no-op — the children list grows from 1 to 2 and the
node's `visits` statistic moves from 2 to 3, because `expand` only guards on
`gameOver` and the depth cap, not on existing children. -/
theorem c2_counterexample :
    reNode.data.gameOver = false ∧ reNode.children.length = 1 ∧
      reNode.data.visits = 2 ∧
      ((expandLocal wEv wEx 0 wStore2 reNode).map fun r => r.1.children.length) =
        .ok 2 ∧
      ((expandLocal wEv wEx 0 wStore2 reNode).map fun r => r.1.data.visits) =
        .ok 3 :=
  ⟨rfl, rfl, rfl, rfl, rfl⟩

/-- C2 witness: the amended theorem applied to the concrete terminal node
`termNode`. -/
theorem c2_witness :
    termNode.data.gameOver = true ∧
      expandLocal wEv wEx 0 wStore2 termNode = .ok (termNode, wStore2, []) :=
  ⟨rfl, (c2_expand_noop wScore wEv wEx 0 wStore2 termNode rfl).1⟩

/-- C4 (amended): when the rollout stops because the rules collaborator
reports no legal move, the value backpropagated is the node's stored `winner`
field, left unchanged by the rollout — this is a draw (0) exactly when no
earlier rollout through the node recorded a winner, since a rollout that
reaches game over writes the winner into the node without setting `gameOver`;
and the rollout only writes to its private board copy, never to any
pre-existing board (in particular not to the node's stored board). -/
theorem c4_rollout_spec (ev : Evaluator) (fuel rng : ℕ) (store : Store) (n : TNode)
    (w : ℤ) (reason : StopReason) (rng2 : ℕ) (s2 : Store)
    (h : randomPlayOut ev fuel rng store n = some (.ok (w, reason, rng2, s2))) :
    (reason = .noMove → w = n.data.winner) ∧
      (reason = .noMove → n.data.winner = 0 → w = 0) ∧
      ∀ r < store.length, getBoard s2 r = getBoard store r := by
  refine ⟨?_, ?_, (randomPlayOut_store ev fuel rng store n w reason rng2 s2 h).2⟩
  · intro hr
    subst hr
    exact randomPlayOut_noMove ev fuel rng store n w rng2 s2 h
  · intro hr h0
    subst hr
    rw [randomPlayOut_noMove ev fuel rng store n w rng2 s2 h]
    exact h0

/-- A non-terminal node carrying a stale winner from an earlier rollout:
`winner = 1` but `gameOver = false`. -/
def staleNode : TNode :=
  TNode.mk { side := 1, move := none, winner := 1, winScore := 0, visits := 3,
             gameOver := false, boardRef := 0, depth := 1 } []

/-- C4 witness: the amended theorem applied to the `staleNode` rollout. -/
theorem c4_witness :
    randomPlayOut wEv 5 0 wStore staleNode = some (.ok (1, .noMove, 1, wStore2)) ∧
      (1 : ℤ) = staleNode.data.winner ∧ getBoard wStore2 0 = getBoard wStore 0 :=
  ⟨rfl,
    (c4_rollout_spec wEv 5 0 wStore staleNode 1 .noMove 1 wStore2 rfl).1 rfl,
    (c4_rollout_spec wEv 5 0 wStore staleNode 1 .noMove 1 wStore2 rfl).2.2 0
      (by decide)⟩

/-- C3 (amended): `Search` stores the caller's board reference in the root
without copying at entry (copies are made later, at each expansion and
rollout); no engine operation ever writes to the caller's board or to any
pre-existing board, so after `Search` returns every cell of the caller's
board equals its value at entry. -/
theorem c3_caller_board_not_mutated {R : Type} [LinearOrder R] (ev : Evaluator)
    (ex : Expander) (boardRef : BoardRef) (side : ℤ) (oracle : List Bool)
    (maxDepth maxIters : ℤ) (score : ℕ → ℕ → ℚ → R) (fuel : ℕ) (store : Store)
    (res : Option Move × ℕ) (st : SState) (n : ℕ)
    (h : search ev ex boardRef side oracle maxDepth maxIters score fuel store =
      some (.ok (res, st, n))) :
    ∀ r < store.length, getBoard st.store r = getBoard store r := by
  unfold search at h
  cases hl : searchLoop ev ex maxDepth score fuel maxIters oracle 0
      (initState ev boardRef side store) with
  | none => rw [hl] at h; exact absurd h (by simp)
  | some r2 =>
    cases r2 with
    | error e => rw [hl] at h; exact absurd h (by simp)
    | ok pr =>
      obtain ⟨st2, n2⟩ := pr
      rw [hl] at h
      cases hb : bestChild st2.root with
      | none => simp [hb] at h
      | some c =>
        simp only [hb, Option.some.injEq, Except.ok.injEq, Prod.mk.injEq] at h
        obtain ⟨-, h2, -⟩ := h
        subst h2
        exact (searchLoop_spec ev ex maxDepth score fuel maxIters oracle 0
          (initState ev boardRef side store) st2 n2 hl).1.2


theorem descendCore_leaf {R : Type} [LinearOrder R] (score : ℕ → ℕ → ℚ → R)
    (d : NodeData) : descendCore score (TNode.mk d []) = ([], [], false) := by
  rw [descendCore]
  simp

theorem promisingPath_leaf {R : Type} [LinearOrder R] (score : ℕ → ℕ → ℚ → R)
    (d : NodeData) : promisingPath score (TNode.mk d []) = [] := by
  unfold promisingPath promisingCore
  split
  · rfl
  · rw [descendCore_leaf]

/-- The state the canonical one-iteration run of the trivial game ends in:
the root was expanded once (one terminal child) and one draw was
backpropagated. -/
def wState1 : SState :=
  { root := TNode.mk { side := 2, move := none, winner := 0, winScore := 0, visits := 2,
                       gameOver := false, boardRef := 0, depth := 0 }
      [TNode.mk { side := 1, move := some ⟨0, 0⟩, winner := 0, winScore := 0, visits := 2,
                  gameOver := true, boardRef := 1, depth := 1 } []],
    store := wStore2, rng := 0 }

theorem wIter_eq :
    searchIter wEv wEx 0 wScore 5 (initState wEv 0 1 wStore) = some (.ok wState1) := by
  unfold searchIter
  simp only [initState, mkRoot]
  rw [promisingPath_leaf wScore]
  norm_num [expandAt, expandLocal, expandMoves, copyBoard, allocBoard, getBoard, setBoard,
    seedData, mkChild, wEv, wEx, wStore, firstChildPath, getNode?, randomPlayOut,
    playoutLoop, backpropagate, backpropWith, winnerAt, dataAt, setWinnerAt, bumpData,
    wState1, wStore2]
  decide

theorem wLoop_eq :
    searchLoop wEv wEx 0 wScore 5 0 [] 0 (initState wEv 0 1 wStore) =
      some (.ok (wState1, 1)) := by
  rw [searchLoop.eq_def]
  rw [dif_pos (Or.inl rfl)]
  rw [if_neg (by omega)]
  rw [wIter_eq]
  norm_num
  rw [searchLoop.eq_def]
  norm_num

/-- The canonical concrete run: one iteration of `search` on the trivial
game with an empty time oracle. -/
theorem wRun_eq :
    search wEv wEx 0 1 [] 0 0 wScore 5 wStore =
      some (.ok ((some ⟨0, 0⟩, 2), wState1, 1)) := by
  unfold search
  rw [wLoop_eq]
  norm_num [bestChild, bestGo, wState1]

/-- A collaborator whose random source offers one terminal move and then no
move: the first rollout through a node records winner 1, the second stops
with no legal move. -/
def sEv : Evaluator :=
  { RandomMove := fun rng _ _ => if rng = 0 then some ⟨5, 0⟩ else none
    ApplyMove := fun b _ m => if m.mid = 5 then .ok (true, 1, b) else .ok (false, 0, b)
    NextPlayer := fun s => 3 - s
    PrevPlayer := fun s => 3 - s }

/-- A concrete score function into `Bool` for counterexample runs. -/
def bScore : ℕ → ℕ → ℚ → Bool := fun _ _ _ => false

/-- The state one full iteration of `Search` on `sEv` reaches: the root's
only child was rolled out to a game over and carries `winner = 1` with
`gameOver = false`. -/
def sState1 : SState :=
  { root := TNode.mk { side := 2, move := none, winner := 0, winScore := -1, visits := 2,
                       gameOver := false, boardRef := 0, depth := 0 }
      [TNode.mk { side := 1, move := some ⟨0, 0⟩, winner := 1, winScore := 1, visits := 2,
                  gameOver := false, boardRef := 1, depth := 1 } []],
    store := [[[0]], [[0]], [[0]]], rng := 1 }

/-- The root's only child in `sState1`. -/
def sChild : TNode :=
  TNode.mk { side := 1, move := some ⟨0, 0⟩, winner := 1, winScore := 1, visits := 2,
             gameOver := false, boardRef := 1, depth := 1 } []

theorem sIter_eq :
    searchIter sEv wEx 1 bScore 5 (initState sEv 0 1 wStore) = some (.ok sState1) := by
  unfold searchIter
  simp only [initState, mkRoot]
  rw [promisingPath_leaf bScore]
  norm_num [expandAt, expandLocal, expandMoves, copyBoard, allocBoard, getBoard, setBoard,
    seedData, mkChild, sEv, wEx, wStore, firstChildPath, getNode?, randomPlayOut,
    playoutLoop, backpropagate, backpropWith, winnerAt, dataAt, setWinnerAt, bumpData,
    sState1]
  decide

theorem sPath_eq : promisingPath bScore sState1.root = [0] := by
  unfold promisingPath promisingCore sState1
  norm_num [descendCore, hIdxCore, hGo, descendCore_leaf]

/-- C4 counterexample: in the state `sState1`, reached by one real iteration
of the engine, selection picks the root's only child, which a previous
rollout left with `winner = 1` and `gameOver = false`; the next rollout on
it stops because the collaborator reports no legal move, yet the outcome it
hands to backpropagation is the stale winner 1 — not the draw 0 the claim
requires for every prior history of rollouts through the node. -/
theorem c4_counterexample :
    searchIter sEv wEx 1 bScore 5 (initState sEv 0 1 wStore) = some (.ok sState1) ∧
      getNode? sState1.root (promisingPath bScore sState1.root) = some sChild ∧
      sChild.data.gameOver = false ∧ sChild.data.winner = 1 ∧
      randomPlayOut sEv 5 sState1.rng sState1.store sChild =
        some (.ok (1, .noMove, 2, sState1.store ++ [[[0]]])) ∧
      (1 : ℤ) ≠ 0 := by
  refine ⟨sIter_eq, ?_, rfl, rfl, rfl, by decide⟩
  rw [sPath_eq]
  rfl


theorem search_ok_elim {R : Type} [LinearOrder R] (ev : Evaluator) (ex : Expander)
    (boardRef : BoardRef) (side : ℤ) (oracle : List Bool) (maxDepth maxIters : ℤ)
    (score : ℕ → ℕ → ℚ → R) (fuel : ℕ) (store : Store)
    (res : Option Move × ℕ) (st : SState) (n : ℕ)
    (h : search ev ex boardRef side oracle maxDepth maxIters score fuel store =
      some (.ok (res, st, n))) :
    searchLoop ev ex maxDepth score fuel maxIters oracle 0
        (initState ev boardRef side store) = some (.ok (st, n)) ∧
      ∃ c, bestChild st.root = some c ∧ res = (c.data.move, st.root.data.visits) := by
  unfold search at h
  cases hl : searchLoop ev ex maxDepth score fuel maxIters oracle 0
      (initState ev boardRef side store) with
  | none => rw [hl] at h; exact absurd h (by simp)
  | some r2 =>
    cases r2 with
    | error e => rw [hl] at h; exact absurd h (by simp)
    | ok pr =>
      obtain ⟨st2, n2⟩ := pr
      rw [hl] at h
      cases hb : bestChild st2.root with
      | none => simp [hb] at h
      | some c =>
        simp only [hb, Option.some.injEq, Except.ok.injEq, Prod.mk.injEq] at h
        obtain ⟨h1, h2, h3⟩ := h
        subst h2
        subst h3
        exact ⟨rfl, c, hb, h1.symm⟩

/-- C3 counterexample: the board argument is NOT copied at entry — the fresh
root of a `Search` call holds the caller's own board reference (slot 0) and
the heap is unchanged at entry (no copy is allocated), and the root still
aliases the caller's slot when the search finishes; copies are only taken at
expansion and rollout time. -/
theorem c3_counterexample :
    (initState wEv 0 1 wStore).root.data.boardRef = 0 ∧
      (initState wEv 0 1 wStore).store = wStore ∧
      ((search wEv wEx 0 1 [] 0 0 wScore 5 wStore).map fun r =>
        r.map fun x => x.2.1.root.data.boardRef) = some (.ok 0) := by
  refine ⟨rfl, rfl, ?_⟩
  rw [wRun_eq]
  rfl

/-- C3 witness: after the canonical concrete run, the caller's board at
slot 0 is unchanged. -/
theorem c3_witness :
    search wEv wEx 0 1 [] 0 0 wScore 5 wStore =
      some (.ok ((some ⟨0, 0⟩, 2), wState1, 1)) ∧
      getBoard wState1.store 0 = getBoard wStore 0 :=
  ⟨wRun_eq, c3_caller_board_not_mutated wEv wEx 0 1 [] 0 0 wScore 5 wStore
    (some ⟨0, 0⟩, 2) wState1 1 wRun_eq 0 (by decide)⟩

/-- C5: a completed `Search` run executes the loop body at least once for
every duration oracle (including the all-false oracle of a zero or negative
duration); with `maxIters > 0` the body runs at most `maxIters` times; with
`maxIters ≤ 0` the iteration count is fixed by the duration oracle alone:
one unconditional first iteration plus one iteration per leading `true`
time-check. -/
theorem c5_loop_budget {R : Type} [LinearOrder R] (ev : Evaluator) (ex : Expander)
    (boardRef : BoardRef) (side : ℤ) (oracle : List Bool) (maxDepth maxIters : ℤ)
    (score : ℕ → ℕ → ℚ → R) (fuel : ℕ) (store : Store)
    (res : Option Move × ℕ) (st : SState) (n : ℕ)
    (h : search ev ex boardRef side oracle maxDepth maxIters score fuel store =
      some (.ok (res, st, n))) :
    1 ≤ n ∧ (0 < maxIters → (n : ℤ) ≤ maxIters) ∧
      (maxIters ≤ 0 → n = 1 + (oracle.takeWhile id).length) := by
  have hl := (search_ok_elim ev ex boardRef side oracle maxDepth maxIters score fuel
    store res st n h).1
  exact searchLoop_count_zero ev ex maxDepth score fuel maxIters oracle _ st n hl

/-- C5 witness: the canonical run with the empty oracle and `maxIters = 0`
performs exactly one iteration. -/
theorem c5_witness :
    search wEv wEx 0 1 [] 0 0 wScore 5 wStore =
      some (.ok ((some ⟨0, 0⟩, 2), wState1, 1)) ∧
      1 ≤ 1 ∧ ((0 : ℤ) ≤ 0 → 1 = 1 + (([] : List Bool).takeWhile id).length) :=
  ⟨wRun_eq,
    (c5_loop_budget wEv wEx 0 1 [] 0 0 wScore 5 wStore (some ⟨0, 0⟩, 2) wState1 1
      wRun_eq).1,
    (c5_loop_budget wEv wEx 0 1 [] 0 0 wScore 5 wStore (some ⟨0, 0⟩, 2) wState1 1
      wRun_eq).2.2⟩

/-- C1: a `Search` call that returns normally has run at least one full
iteration; its second return value is the root's total visit count, and the
returned move is the move of the root child with the maximum `visits`, ties
broken in favour of the earliest-created child (every strictly earlier child
has strictly fewer visits). -/
theorem c1_best_move {R : Type} [LinearOrder R] (ev : Evaluator) (ex : Expander)
    (boardRef : BoardRef) (side : ℤ) (oracle : List Bool) (maxDepth maxIters : ℤ)
    (score : ℕ → ℕ → ℚ → R) (fuel : ℕ) (store : Store)
    (mv : Option Move) (tv : ℕ) (st : SState) (n : ℕ)
    (h : search ev ex boardRef side oracle maxDepth maxIters score fuel store =
      some (.ok ((mv, tv), st, n))) :
    1 ≤ n ∧ tv = st.root.data.visits ∧
      ∃ i r, st.root.children[i]? = some r ∧ mv = r.data.move ∧
        (∀ c ∈ st.root.children, c.data.visits ≤ r.data.visits) ∧
        ∀ (j : ℕ) (x : TNode), j < i → st.root.children[j]? = some x →
          x.data.visits < r.data.visits := by
  rcases search_ok_elim ev ex boardRef side oracle maxDepth maxIters score fuel store
    (mv, tv) st n h with ⟨hl, c, hb, hres⟩
  have h1 := (searchLoop_count_zero ev ex maxDepth score fuel maxIters oracle _ st n hl).1
  simp only [Prod.mk.injEq] at hres
  obtain ⟨hmv, htv⟩ := hres
  cases hcs : st.root.children with
  | nil =>
    exfalso
    unfold bestChild at hb
    rw [hcs] at hb
    exact absurd hb (by simp)
  | cons c0 cs =>
    rcases bestChild_spec st.root c0 cs hcs with ⟨i, r, hget, hbc, hmax, hfirst⟩
    rw [hcs] at hget hmax hfirst
    have hrc : r = c := by
      rw [hb] at hbc
      exact (Option.some.inj hbc).symm
    exact ⟨h1, htv, i, r, hget, by rw [hmv, hrc], hmax, hfirst⟩

/-- C1 witness: on the canonical run the returned move is the single root
child's move and the returned count is the root's visits (2). -/
theorem c1_witness :
    search wEv wEx 0 1 [] 0 0 wScore 5 wStore =
      some (.ok ((some ⟨0, 0⟩, 2), wState1, 1)) ∧
      (1 ≤ 1 ∧ (2 : ℕ) = wState1.root.data.visits ∧
        ∃ i r, wState1.root.children[i]? = some r ∧
          (some (⟨0, 0⟩ : Move)) = r.data.move ∧
          (∀ c ∈ wState1.root.children, c.data.visits ≤ r.data.visits) ∧
          ∀ (j : ℕ) (x : TNode), j < i → wState1.root.children[j]? = some x →
            x.data.visits < r.data.visits) :=
  ⟨wRun_eq, c1_best_move wEv wEx 0 1 [] 0 0 wScore 5 wStore
    (some ⟨0, 0⟩) 2 wState1 1 wRun_eq⟩

/-- C7: a rules-collaborator error aborts the whole `Search` call with that
error.  (i) An error from `ApplyMove` during the expansion phase makes the
iteration yield that error; (ii) so does an error during the rollout phase;
(iii) an erroring iteration makes the search loop return the error
immediately, whatever the remaining budget; (iv) a loop error is the result
of the whole `Search` call — it is never swallowed. -/
theorem c7_error_aborts {R : Type} [LinearOrder R] (ev : Evaluator) (ex : Expander)
    (maxDepth : ℤ) (score : ℕ → ℕ → ℚ → R) (fuel : ℕ) (maxIters : ℤ) :
    (∀ (st : SState) (e : Err),
      expandAt ev ex maxDepth st.store st.root (promisingPath score st.root) = .error e →
      searchIter ev ex maxDepth score fuel st = some (.error e)) ∧
    (∀ (st : SState) (e : Err) (root1 : TNode) (store1 : Store) (ds : List (ℤ × ℚ))
        (nd : TNode),
      expandAt ev ex maxDepth st.store st.root (promisingPath score st.root) =
        .ok (root1, store1, ds) →
      getNode? root1 (firstChildPath root1 (promisingPath score st.root)) = some nd →
      randomPlayOut ev fuel st.rng store1 nd = some (.error e) →
      searchIter ev ex maxDepth score fuel st = some (.error e)) ∧
    (∀ (oracle : List Bool) (iter : ℕ) (st : SState) (e : Err),
      (iter = 0 ∨ oracle.headD false = true) →
      ¬(0 < maxIters ∧ maxIters ≤ (iter : ℤ)) →
      searchIter ev ex maxDepth score fuel st = some (.error e) →
      searchLoop ev ex maxDepth score fuel maxIters oracle iter st = some (.error e)) ∧
    (∀ (boardRef : BoardRef) (side : ℤ) (oracle : List Bool) (store : Store) (e : Err),
      searchLoop ev ex maxDepth score fuel maxIters oracle 0
        (initState ev boardRef side store) = some (.error e) →
      search ev ex boardRef side oracle maxDepth maxIters score fuel store =
        some (.error e)) := by
  refine ⟨?_, ?_, ?_, ?_⟩
  · intro st e hexp
    unfold searchIter
    dsimp only []
    rw [hexp]
  · intro st e root1 store1 ds nd hexp hget hroll
    unfold searchIter
    dsimp only []
    rw [hexp]
    dsimp only []
    rw [hget]
    dsimp only []
    rw [hroll]
  · intro oracle iter st e hcond hbudget hit
    rw [searchLoop.eq_def, dif_pos hcond, if_neg hbudget, hit]
  · intro boardRef side oracle store e hl
    unfold search
    rw [hl]

/-- The error of the always-erroring collaborator surfaces already at the
first expansion of the fresh root. -/
theorem bExp_eq :
    expandAt bEv wEx 0 wStore (mkRoot bEv 0 1)
      (promisingPath wScore (mkRoot bEv 0 1)) = .error "boom" := by
  simp only [mkRoot]
  rw [promisingPath_leaf wScore]
  rfl

/-- C7 witness: with the always-erroring collaborator the error aborts the
iteration, the loop and the whole search. -/
theorem c7_witness :
    searchIter bEv wEx 0 wScore 5 (initState bEv 0 1 wStore) =
      some (.error "boom") ∧
      searchLoop bEv wEx 0 wScore 5 0 [] 0 (initState bEv 0 1 wStore) =
        some (.error "boom") ∧
      search bEv wEx 0 1 [] 0 0 wScore 5 wStore = some (.error "boom") := by
  have h1 : searchIter bEv wEx 0 wScore 5 (initState bEv 0 1 wStore) =
      some (.error "boom") :=
    (c7_error_aborts bEv wEx 0 wScore 5 0).1 (initState bEv 0 1 wStore) "boom" bExp_eq
  have h2 : searchLoop bEv wEx 0 wScore 5 0 [] 0 (initState bEv 0 1 wStore) =
      some (.error "boom") :=
    (c7_error_aborts bEv wEx 0 wScore 5 0).2.2.1 [] 0 (initState bEv 0 1 wStore) "boom"
      (Or.inl rfl) (by omega) h1
  exact ⟨h1, h2, (c7_error_aborts bEv wEx 0 wScore 5 0).2.2.2 0 1 [] wStore "boom" h2⟩

/-- C10: every child created by expansion carries `visits = 1` (the seeding
walk increments the fresh child and, per created child, every ancestor); the
fresh root satisfies the visit bookkeeping invariant, every completed
iteration preserves it, and under it the zero-visit short circuit of UCB1
selection never fires during a descent; consequently in a completed search
every root child has `visits ≥ 1`. -/
theorem c10_children_seeded {R : Type} [LinearOrder R] (score : ℕ → ℕ → ℚ → R)
    (ev : Evaluator) (ex : Expander) :
    (∀ (np : ℤ) (ms : List Move) (store : Store) (n n2 : TNode) (s2 : Store)
        (ds : List (ℤ × ℚ)), expandMoves ev np ms store n = .ok (n2, s2, ds) →
        ∀ c ∈ n2.children, c ∈ n.children ∨ (c.data.visits = 1 ∧ c.children = [])) ∧
      (∀ (boardRef : BoardRef) (side : ℤ), treeInvB (mkRoot ev boardRef side) = true) ∧
      (∀ (maxDepth : ℤ) (fuel : ℕ) (st st2 : SState), treeInvB st.root = true →
        searchIter ev ex maxDepth score fuel st = some (.ok st2) →
        treeInvB st2.root = true) ∧
      (∀ n : TNode, treeInvB n = true → promisingZeroHit score n = false) ∧
      (∀ (boardRef : BoardRef) (side : ℤ) (oracle : List Bool) (maxDepth maxIters : ℤ)
          (fuel : ℕ) (store : Store) (res : Option Move × ℕ) (st : SState) (n : ℕ),
        search ev ex boardRef side oracle maxDepth maxIters score fuel store =
          some (.ok (res, st, n)) →
        treeInvB st.root = true ∧ ∀ c ∈ st.root.children, 1 ≤ c.data.visits) := by
  refine ⟨?_, ?_, ?_, ?_, ?_⟩
  · intro np ms store n n2 s2 ds h
    exact (expandMoves_spec ev np ms store n n2 s2 ds h).2.2.2.1
  · intro boardRef side
    rw [mkRoot, treeInvB_iff]
    simp
  · intro maxDepth fuel st st2 hinv hit
    exact (searchIter_spec ev ex maxDepth score fuel st st2 hit).2 hinv
  · intro n hinv
    exact promisingZeroHit_false score n hinv
  · intro boardRef side oracle maxDepth maxIters fuel store res st n h
    have hl := (search_ok_elim ev ex boardRef side oracle maxDepth maxIters score fuel
      store res st n h).1
    have hinv0 : treeInvB (initState ev boardRef side store).root = true := by
      rw [initState]
      rw [mkRoot, treeInvB_iff]
      simp
    have hinv := (searchLoop_spec ev ex maxDepth score fuel maxIters oracle 0
      (initState ev boardRef side store) st n hl).2 hinv0
    refine ⟨hinv, ?_⟩
    intro c hc
    exact (((treeInvB_iff2 st.root).mp hinv).2 c hc).1

/-- C10 witness: the canonical run preserves the invariant and ends with the
single root child visited twice. -/
theorem c10_witness :
    search wEv wEx 0 1 [] 0 0 wScore 5 wStore =
      some (.ok ((some ⟨0, 0⟩, 2), wState1, 1)) ∧
      treeInvB wState1.root = true ∧
      (∀ c ∈ wState1.root.children, 1 ≤ c.data.visits) ∧
      promisingZeroHit wScore wState1.root = false := by
  have hmain := (c10_children_seeded wScore wEv wEx).2.2.2.2 0 1 [] 0 0 5 wStore
    (some ⟨0, 0⟩, 2) wState1 1 wRun_eq
  exact ⟨wRun_eq, hmain.1, hmain.2,
    (c10_children_seeded wScore wEv wEx).2.2.2.1 wState1.root hmain.1⟩

/-- C9: UCB1 selection never evaluates `ln 0` and never divides by zero: the
score formula is evaluated only at argument pairs whose child `visits` is
positive (the zero-visit short circuit fires first), and whenever the tree
satisfies the visit bookkeeping invariant — as every tree reached by a
search does — the `parentVisits` argument of every evaluation during a
descent is positive as well. -/
theorem c9_no_log_zero {R : Type} [LinearOrder R] (score : ℕ → ℕ → ℚ → R)
    (ev : Evaluator) (ex : Expander) :
    (∀ (pv : ℕ) (cs : List TNode) (pr : ℕ × ℕ), pr ∈ (hIdxCore score pv cs).2.1 →
      pr.1 = pv ∧ 0 < pr.2) ∧
      (∀ n : TNode, treeInvB n = true →
        ∀ pr ∈ promisingEvals score n, 0 < pr.1 ∧ 0 < pr.2) ∧
      (∀ (boardRef : BoardRef) (side : ℤ) (oracle : List Bool) (maxDepth maxIters : ℤ)
          (fuel : ℕ) (store : Store) (res : Option Move × ℕ) (st : SState) (n : ℕ),
        search ev ex boardRef side oracle maxDepth maxIters score fuel store =
          some (.ok (res, st, n)) →
        ∀ pr ∈ promisingEvals score st.root, 0 < pr.1 ∧ 0 < pr.2) := by
  refine ⟨?_, ?_, ?_⟩
  · intro pv cs pr hpr
    exact hIdxCore_evals_pos score pv cs pr hpr
  · intro n hinv
    exact promisingEvals_pos score n hinv
  · intro boardRef side oracle maxDepth maxIters fuel store res st n h
    have hl := (search_ok_elim ev ex boardRef side oracle maxDepth maxIters score fuel
      store res st n h).1
    have hinv0 : treeInvB (initState ev boardRef side store).root = true := by
      rw [initState]
      rw [mkRoot, treeInvB_iff]
      simp
    have hinv := (searchLoop_spec ev ex maxDepth score fuel maxIters oracle 0
      (initState ev boardRef side store) st n hl).2 hinv0
    exact promisingEvals_pos score st.root hinv

/-- C9 witness: on the canonical run every selection evaluation argument of
the final tree is positive. -/
theorem c9_witness :
    search wEv wEx 0 1 [] 0 0 wScore 5 wStore =
      some (.ok ((some ⟨0, 0⟩, 2), wState1, 1)) ∧
      ∀ pr ∈ promisingEvals wScore wState1.root, 0 < pr.1 ∧ 0 < pr.2 :=
  ⟨wRun_eq, (c9_no_log_zero wScore wEv wEx).2.2 0 1 [] 0 0 5 wStore
    (some ⟨0, 0⟩, 2) wState1 1 wRun_eq⟩
